import Mathlib

/-!
Verification development for the fabric-ansible-collection core:
the MSP compiler (`plugins/module_utils/msp_utils.py`) and the
ordering-service-node reconciler (`plugins/modules/ordering_service_node.py`).

Python's nested dictionaries, lists and scalars are embedded as the
inductive type `Value`; dictionaries become association lists of
string keys (Python dictionaries preserve insertion order, which the
embedding keeps).  The dictionary utilities (`copy_dict`, `equal_dicts`,
`merge_dicts`, `diff_dicts` from `module_utils/dict_utils.py`),
certificate normalization (`module_utils/cert_utils.py`), the console
client and the result-extraction helpers are repository code that is not
part of the sources being analysed; those are modelled from the
specification and are marked as such in their doc comments.
-/

/-- A Python value as used by the modules: None, bool, str, int,
list, and dict (association list preserving insertion order). -/
inductive Value where
  | vnull : Value
  | vbool : Bool → Value
  | vstr : String → Value
  | vint : Int → Value
  | varr : List Value → Value
  | vobj : List (String × Value) → Value
deriving Repr

/-- Entries of an embedded Python dictionary. -/
abbrev KVs := List (String × Value)

/-- Lookup of a key in a dictionary, first occurrence wins
(Python dictionaries cannot hold duplicate keys, so on faithful
inputs this is exact). -/
def lookupKV : KVs → String → Option Value
  | [], _ => none
  | (k', v) :: t, k => if k' = k then some v else lookupKV t k

/-- Python dictionary assignment `d[k] = v`: replace the value at an
existing key in place, otherwise append the new key at the end. -/
def setKV : KVs → String → Value → KVs
  | [], k, v => [(k, v)]
  | (k', v') :: t, k, v => if k' = k then (k, v) :: t else (k', v') :: setKV t k v

/-- Python `del d[k]` / `d.pop(k, None)`: remove the key. -/
def delKV : KVs → String → KVs
  | [], _ => []
  | (k', v') :: t, k => if k' = k then delKV t k else (k', v') :: delKV t k

/-- List of keys of a dictionary. -/
def keysOf (t : KVs) : List String :=
  t.map Prod.fst

/-- Whether a list of keys is duplicate-free (Python dictionaries
always are). -/
def nodupKeys : List String → Bool
  | [] => true
  | k :: ks => !(ks.contains k) && nodupKeys ks

mutual

/-- Well-formedness of an embedded value: every dictionary below it is
duplicate-key-free.  Every value that can occur in the Python program
satisfies this. -/
def Value.wf : Value → Bool
  | .vnull => true
  | .vbool _ => true
  | .vstr _ => true
  | .vint _ => true
  | .varr xs => wfList xs
  | .vobj fs => nodupKeys (keysOf fs) && wfKVs fs

/-- Well-formedness of a list of values. -/
def wfList : List Value → Bool
  | [] => true
  | x :: xs => x.wf && wfList xs

/-- Well-formedness of dictionary entries. -/
def wfKVs : KVs → Bool
  | [] => true
  | (_, v) :: t => v.wf && wfKVs t

end

section DictUtils

/-- Keys of `g` are all present in `a`. -/
def keysIn (g a : KVs) : Bool :=
  g.all (fun kv => (lookupKV a kv.1).isSome)

mutual

/-- Modelled from the spec (§4.1, `equal_dicts` of
`module_utils/dict_utils.py`, not among the analysed sources): deep
structural equality where sequence order is significant and mapping
key order is not — two dictionaries are equal when each holds every
key of the other with a deeply equal value. -/
def Value.equal : Value → Value → Bool
  | .vnull, .vnull => true
  | .vbool a, .vbool b => a == b
  | .vstr a, .vstr b => a == b
  | .vint a, .vint b => a == b
  | .varr a, .varr b => equalList a b
  | .vobj a, .vobj b => equalEntries a b && keysIn b a
  | _, _ => false

/-- Element-wise deep equality of sequences. -/
def equalList : List Value → List Value → Bool
  | [], [] => true
  | a :: as, b :: bs => Value.equal a b && equalList as bs
  | _, _ => false

/-- Every entry of the first dictionary is present in the second with
a deeply equal value. -/
def equalEntries : KVs → KVs → Bool
  | [], _ => true
  | (k, v) :: t, g =>
    (match lookupKV g k with
     | some w => Value.equal v w
     | none => false) && equalEntries t g

end

mutual

/-- The value stored at a key by one merge step: when both the
existing value and the overlay value are dictionaries they are merged
recursively, otherwise the overlay value replaces the old one. -/
def mergeOneVal : Option Value → Value → Value
  | some (.vobj tv), .vobj sv => .vobj (mergeKV tv sv)
  | _, v => v

/-- Modelled from the spec (§4.1, `merge_dicts` of
`module_utils/dict_utils.py`, not among the analysed sources): for
each key of the overlay, recursively merge when both sides hold
dictionaries and otherwise replace; keys absent from the overlay are
preserved. -/
def mergeKV : KVs → KVs → KVs
  | t, [] => t
  | t, (k, v) :: s => mergeKV (setKV t k (mergeOneVal (lookupKV t k) v)) s

end

mutual

/-- Modelled from the spec (§4.1, `copy_dict` of
`module_utils/dict_utils.py`, not among the analysed sources): deep
structural copy.  In the pure embedding the copy is provably equal to
its input. -/
def copyVal : Value → Value
  | .vnull => .vnull
  | .vbool b => .vbool b
  | .vstr s => .vstr s
  | .vint n => .vint n
  | .varr xs => .varr (copyList xs)
  | .vobj fs => .vobj (copyKVs fs)

/-- Deep copy of a sequence. -/
def copyList : List Value → List Value
  | [] => []
  | x :: xs => copyVal x :: copyList xs

/-- Deep copy of dictionary entries. -/
def copyKVs : KVs → KVs
  | [] => []
  | (k, v) :: t => (k, copyVal v) :: copyKVs t

end

/-- Modelled from the spec (§4.1, `diff_dicts` of
`module_utils/dict_utils.py`, not among the analysed sources): for each
top-level key of `b` whose value differs from `a`'s (by deep
equality), report `b`'s value; the diff is shallow at the top level. -/
def diffKV (a b : KVs) : KVs :=
  b.filter (fun kv =>
    match lookupKV a kv.1 with
    | some w => !(Value.equal w kv.2)
    | none => true)

/-- Modelled from the spec (§4.4, `normalize_whitespace` of
`module_utils/cert_utils.py`, not among the analysed sources):
whitespace-insensitive certificate comparison is realized by removing
whitespace characters. -/
def normalize_whitespace (s : String) : String :=
  ⟨s.data.filter (fun c => !c.isWhitespace)⟩

/-- First-occurrence deduplication, the embedding of building a Python
set from a list of strings. -/
def dedupFirst : List String → List String
  | [] => []
  | x :: xs => x :: (dedupFirst xs).filter (fun y => y != x)

end DictUtils

section MspUtils

/-- Modelled from the spec: the `Organization` transfer object of §3
(class `Organization` from `module_utils/organizations.py`, constructed
positionally as
`Organization(name, msp_id, root_certs, intermediate_certs, admins,
revocation_list, tls_root_certs, tls_intermediate_certs,
fabric_node_ous, organizational_unit_identifiers, signing_identity)`
as seen at the call site in `msp_to_organization`).  Certificate lists
and the node-OU configuration are opaque embedded values. -/
structure Organization where
  name : String
  msp_id : String
  root_certs : Value
  intermediate_certs : Value
  admins : Value
  revocation_list : Value
  tls_root_certs : Value
  tls_intermediate_certs : Value
  fabric_node_ous : Value
  organizational_unit_identifiers : Value
  signing_identity : Value
deriving Repr

/-- `get_default_admins_policy` from `msp_utils.py`: the 1-of-1 ROLE
signature policy over the organization's MSP id with role ADMIN. -/
def get_default_admins_policy (organization : Organization) : Value :=
  .vobj [("type", .vint 1),
         ("value", .vobj
           [("identities", .varr
              [.vobj [("principal", .vobj
                        [("msp_identifier", .vstr organization.msp_id),
                         ("role", .vstr "ADMIN")]),
                      ("principal_classification", .vstr "ROLE")]]),
            ("rule", .vobj
              [("n_out_of", .vobj
                 [("n", .vint 1),
                  ("rules", .varr [.vobj [("signed_by", .vint 0)]])])])])]

/-- `get_default_readers_policy` from `msp_utils.py`. -/
def get_default_readers_policy (organization : Organization) : Value :=
  .vobj [("type", .vint 1),
         ("value", .vobj
           [("identities", .varr
              [.vobj [("principal", .vobj
                        [("msp_identifier", .vstr organization.msp_id),
                         ("role", .vstr "MEMBER")]),
                      ("principal_classification", .vstr "ROLE")]]),
            ("rule", .vobj
              [("n_out_of", .vobj
                 [("n", .vint 1),
                  ("rules", .varr [.vobj [("signed_by", .vint 0)]])])])])]

/-- `get_default_writers_policy` from `msp_utils.py`. -/
def get_default_writers_policy (organization : Organization) : Value :=
  .vobj [("type", .vint 1),
         ("value", .vobj
           [("identities", .varr
              [.vobj [("principal", .vobj
                        [("msp_identifier", .vstr organization.msp_id),
                         ("role", .vstr "MEMBER")]),
                      ("principal_classification", .vstr "ROLE")]]),
            ("rule", .vobj
              [("n_out_of", .vobj
                 [("n", .vint 1),
                  ("rules", .varr [.vobj [("signed_by", .vint 0)]])])])])]

/-- `get_default_endorsement_policy` from `msp_utils.py`. -/
def get_default_endorsement_policy (organization : Organization) : Value :=
  .vobj [("type", .vint 1),
         ("value", .vobj
           [("identities", .varr
              [.vobj [("principal", .vobj
                        [("msp_identifier", .vstr organization.msp_id),
                         ("role", .vstr "MEMBER")]),
                      ("principal_classification", .vstr "ROLE")]]),
            ("rule", .vobj
              [("n_out_of", .vobj
                 [("n", .vint 1),
                  ("rules", .varr [.vobj [("signed_by", .vint 0)]])])])])]

/-- A named policy wrapped as `{mod_policy: Admins, policy: p}` as done
for every entry of the `policies` mapping in `organization_to_msp`. -/
def wrapPolicy (p : Value) : Value :=
  .vobj [("mod_policy", .vstr "Admins"), ("policy", p)]

/-- `organization_to_msp` from `msp_utils.py`: builds the MSP config
tree with default Admins/Readers/Writers policies, the optional
Endorsement policy, caller-supplied extra policies (each wrapped with
`mod_policy=Admins`, overwriting same-named entries), and the
`values.MSP.value.config` subtree holding the organization's fields
verbatim plus the fixed crypto-config constants and
`signing_identity=None`. -/
def organization_to_msp (organization : Organization)
    (endorsement_policy_required : Bool) (policies : KVs) : KVs :=
  let basePolicies : KVs :=
    [("Admins", wrapPolicy (get_default_admins_policy organization)),
     ("Readers", wrapPolicy (get_default_readers_policy organization)),
     ("Writers", wrapPolicy (get_default_writers_policy organization))]
  let withEndorsement :=
    if endorsement_policy_required then
      setKV basePolicies "Endorsement"
        (wrapPolicy (get_default_endorsement_policy organization))
    else basePolicies
  let allPolicies :=
    policies.foldl (fun acc kv => setKV acc kv.1 (wrapPolicy kv.2)) withEndorsement
  [("groups", .vobj []),
   ("mod_policy", .vstr "Admins"),
   ("policies", .vobj allPolicies),
   ("values", .vobj
     [("MSP", .vobj
        [("mod_policy", .vstr "Admins"),
         ("value", .vobj
           [("config", .vobj
              [("admins", organization.admins),
               ("crypto_config", .vobj
                  [("identity_identifier_hash_function", .vstr "SHA256"),
                   ("signature_hash_family", .vstr "SHA2")]),
               ("fabric_node_ous", organization.fabric_node_ous),
               ("intermediate_certs", organization.intermediate_certs),
               ("name", .vstr organization.msp_id),
               ("organizational_unit_identifiers",
                  organization.organizational_unit_identifiers),
               ("revocation_list", organization.revocation_list),
               ("root_certs", organization.root_certs),
               ("signing_identity", .vnull),
               ("tls_intermediate_certs", organization.tls_intermediate_certs),
               ("tls_root_certs", organization.tls_root_certs)]),
            ("type", .vint 0)])])])]

/-- The failure raised by `msp_to_organization` when the MSP tree lacks
the required structure (a `KeyError`/`TypeError` in Python, the
`MalformedMspError` of the specification's taxonomy). -/
inductive MalformedMspError where
  | keyError : String → MalformedMspError
  | typeError : String → MalformedMspError
deriving Repr

/-- Python subscription `v[k]`: fails when `v` is not a dictionary or
lacks the key. -/
def getItem (v : Value) (k : String) : Except MalformedMspError Value :=
  match v with
  | .vobj fs =>
    match lookupKV fs k with
    | some w => .ok w
    | none => .error (.keyError k)
  | _ => .error (.typeError k)

/-- `msp_to_organization` from `msp_utils.py`: extracts the fixed set
of fields from `values.MSP.value.config` and returns
`Organization(msp_id, msp_id, root_certs, intermediate_certs, admins,
revocation_list, tls_root_certs, tls_intermediate_certs,
fabric_node_ous, organizational_unit_identifiers, None)`. -/
def msp_to_organization (msp_id : String) (msp : Value) :
    Except MalformedMspError Organization := do
  let msp_value ← getItem msp "values" >>= (getItem · "MSP")
  let msp_config ← getItem msp_value "value" >>= (getItem · "config")
  let root_certs ← getItem msp_config "root_certs"
  let intermediate_certs ← getItem msp_config "intermediate_certs"
  let admins ← getItem msp_config "admins"
  let revocation_list ← getItem msp_config "revocation_list"
  let tls_root_certs ← getItem msp_config "tls_root_certs"
  let tls_intermediate_certs ← getItem msp_config "tls_intermediate_certs"
  let fabric_node_ous ← getItem msp_config "fabric_node_ous"
  let organizational_unit_identifiers ←
    getItem msp_config "organizational_unit_identifiers"
  return ⟨msp_id, msp_id, root_certs, intermediate_certs, admins,
          revocation_list, tls_root_certs, tls_intermediate_certs,
          fabric_node_ous, organizational_unit_identifiers, .vnull⟩

/-- Chained presence of a path of keys in a value tree. -/
def hasPath : Value → List String → Bool
  | _, [] => true
  | .vobj fs, k :: ks =>
    match lookupKV fs k with
    | some w => hasPath w ks
    | none => false
  | _, _ :: _ => false

end MspUtils

section Reconciler

/-- The `hsm` option block of the module's argument spec
(`pkcs11endpoint` optional, `label` and `pin` required). -/
structure Hsm where
  pkcs11endpoint : Option String
  label : String
  pin : String
deriving Repr

/-- Modelled from the spec (§6): the data the console holds about a
certificate authority, as consumed by the `get_crypto_enrollment_*`
helpers (API URL host and port, CA and TLS-CA names, TLS certificate). -/
structure CAInfo where
  host : String
  port : String
  caName : String
  tlscaName : String
  pem : String
deriving Repr

/-- The caller parameters of the `ordering_service_node` module that
the reconciliation logic reads.  `Option` distinguishes unset (or
explicit null) parameters from supplied ones; `config_override`
defaults to the empty dictionary in the argument spec, which
corresponds to `some []`. -/
structure OsnParams where
  state : String
  name : String
  ordering_service : Option String
  msp_id : Option String
  orderer_type : String
  system_channel_id : String
  config_block : Option String
  certificate_authority : Option String
  enrollment_id : Option String
  enrollment_secret : Option String
  admins : Option (List String)
  crypto : Option KVs
  config_override : Option KVs
  resources : Option KVs
  storage : KVs
  hsm : Option Hsm
  zone : Option String
  version : Option String

/-- Modelled from the spec (§6): the remote console as seen through
one reconciliation of a single node name — the component stored under
the module's display name (if any), the ordering-service cluster
identity used on the create path, the known certificate authority, and
the two deterministic version-resolution operations. -/
structure Console where
  node : Option KVs
  clusterInfo : Option (String × String)
  ca : Option CAInfo
  resolveOSN : String → String
  resolvePeer : String → String

/-- The remote console calls issued by one reconciliation run, in
order. -/
inductive RAction where
  | deleteNode : RAction
  | deleteExtNode : RAction
  | createNode : KVs → RAction
  | updateNode : KVs → RAction
  | editAdminCerts : List String → List String → RAction
  | submitConfigBlock : String → RAction
  | editNodeFin : RAction
  | resolveOSN : String → RAction
  | resolvePeer : String → RAction
  | waitReady : RAction

/-- The failures a reconciliation run can end with. -/
inductive RErr where
  | pyKeyError : String → RErr
  | typeError : String → RErr
  | validationError : String → RErr
  | remoteError : String → RErr
  | illegalChange : String → Option Value → Option Value → RErr

/-- The outcome of one reconciliation run: the console state after the
run, the `changed` flag, the returned ordering-service-node value (when
`state` is `present`), and the console calls made. -/
structure RunResult where
  console : Console
  changed : Bool
  output : Option KVs
  actions : List RAction

instance : Inhabited RunResult :=
  ⟨⟨⟨none, none, none, fun _ => "", fun _ => ""⟩, false, none, []⟩⟩

/-- Python truthiness of an embedded value. -/
def isTruthy : Value → Bool
  | .vnull => false
  | .vbool b => b
  | .vint n => n != 0
  | .vstr s => !s.isEmpty
  | .varr xs => !xs.isEmpty
  | .vobj fs => !fs.isEmpty

/-- One step of the update path's resource scrub (source lines
791–795): when the section under `key` is a dictionary holding a
`limits` key, delete that `limits` key. -/
def scrubLimits (r : KVs) (key : String) : KVs :=
  match lookupKV r key with
  | some (.vobj ord) =>
    if (lookupKV ord "limits").isSome then
      setKV r key (.vobj (delKV ord "limits"))
    else r
  | _ => r

/-- The scrub applied to the observed resources subtree on the update
path (source lines 791–798): drop `orderer.limits` and `proxy.limits`,
then pop `init`. -/
def scrubResourcesObj (res : KVs) : KVs :=
  delKV (scrubLimits (scrubLimits res "orderer") "proxy") "init"

/-- The observed node after the update path's resource scrub; fails
like the Python subscription when the node has no dictionary at
`resources`. -/
def scrubObserved (o : KVs) : Except RErr KVs :=
  match lookupKV o "resources" with
  | some (.vobj res) => .ok (setKV o "resources" (.vobj (scrubResourcesObj res)))
  | some _ => .error (.typeError "resources")
  | none => .error (.pyKeyError "resources")

/-- The expected-overlay of the update path (source lines 801–824):
the caller-supplied `config_override`, `resources`, `crypto` in
insertion order, each omitted when unset, and `version` resolved
through the console's peer version resolution. -/
def buildOverlay (resolve : String → String) (p : OsnParams) : KVs :=
  (match p.config_override with
   | some v => [("config_override", Value.vobj v)]
   | none => []) ++
  (match p.resources with
   | some v => [("resources", Value.vobj v)]
   | none => []) ++
  (match p.crypto with
   | some v => [("crypto", Value.vobj v)]
   | none => []) ++
  (match p.version with
   | some v => [("version", Value.vstr (resolve v))]
   | none => [])

/-- The version-resolution console call made by the update path. -/
def overlayActions (p : OsnParams) : List RAction :=
  match p.version with
  | some v => [RAction.resolvePeer v]
  | none => []

/-- The top-level keys that may legally differ on the update path
(source line 832). -/
def permittedChanges : List String :=
  ["resources", "config_override", "version", "crypto"]

/-- The first diffed key outside the permitted set, in diff iteration
order (source lines 834–836). -/
def findIllegal (d : KVs) : Option String :=
  (d.find? (fun kv => !(permittedChanges.contains kv.1))).map Prod.fst

/-- The update payload: the diff, with the whole new resources subtree
substituted whenever the caller supplied `resources` (source lines
838–840). -/
def mkPayload (p : OsnParams) (d nw : KVs) : Except RErr KVs :=
  match p.resources with
  | some _ =>
    match lookupKV nw "resources" with
    | some rv => .ok (setKV d "resources" rv)
    | none => .error (.pyKeyError "resources")
  | none => .ok d

/-- Modelled from the spec (§6 `update`, §4.4, §9: the console applies
an update payload by whole-subtree replacement of each submitted
top-level key). -/
def applyUpdateStored (st d : KVs) : KVs :=
  d.foldl (fun acc kv => setKV acc kv.1 kv.2) st

/-- Strings of a Python list value; fails on non-string elements like
mapping `normalize_whitespace` over them would. -/
def strList : List Value → Except RErr (List String)
  | [] => .ok []
  | .vstr s :: t => (strList t).map (fun l => s :: l)
  | _ :: _ => .error (.typeError "expected a list of strings")

/-- Strings of an `admin_certs` style value. -/
def asStringList : Value → Except RErr (List String)
  | .varr xs => strList xs
  | _ => .error (.typeError "expected a list")

/-- The `admincerts` list under `crypto[configType].component`, empty
when the path is absent or not a list of strings (source lines
871–876). -/
def adminCertsFromCrypto (cr : KVs) (configType : String) : List String :=
  match lookupKV cr configType with
  | some (.vobj sect) =>
    match lookupKV sect "component" with
    | some (.vobj comp) =>
      match lookupKV comp "admincerts" with
      | some (.varr xs) =>
        xs.filterMap (fun v => match v with | .vstr s => some s | _ => none)
      | _ => []
    | _ => []
  | _ => []

/-- The desired admin certificates, determined from the `admins`
parameter when non-empty, else from
`crypto.enrollment.component.admincerts`, else from
`crypto.msp.component.admincerts`, following Python truthiness
(source lines 869–877). -/
def getExpectedAdmins (p : OsnParams) : List String :=
  match p.admins with
  | some (a :: rest) => a :: rest
  | _ =>
    match p.crypto with
    | some cr =>
      if cr.isEmpty then []
      else
        let e := adminCertsFromCrypto cr "enrollment"
        if e.isEmpty then adminCertsFromCrypto cr "msp" else e
    | none => []

/-- Modelled from the spec (§6 `edit_admin_certs`): the console
appends the submitted certificates and removes the certificates whose
normalized form was submitted for removal. -/
def applyAdminEdit (st : KVs) (app rem : List String) : Except RErr KVs :=
  match lookupKV st "admin_certs" with
  | some av => do
    let cur ← asStringList av
    .ok (setKV st "admin_certs"
      (.varr (((cur.filter (fun s => !(rem.contains (normalize_whitespace s)))) ++ app).map .vstr)))
  | none => .ok (setKV st "admin_certs" (.varr (app.map .vstr)))

/-- The admin-certificate reconciliation step (source lines 864–886):
when the desired certificates are determinable and the returned node
carries `admin_certs`, normalize both sides, build the set differences
and issue one incremental edit if either is non-empty.  Returns the
console-stored node after the step and the edit action issued. -/
def adminStep (p : OsnParams) (var st : KVs) :
    Except RErr (KVs × List RAction) :=
  let ex := getExpectedAdmins p
  if ex.isEmpty then .ok (st, [])
  else
    match lookupKV var "admin_certs" with
    | none => .ok (st, [])
    | some av => do
      let actual ← asStringList av
      let eset := dedupFirst (ex.map normalize_whitespace)
      let aset := dedupFirst (actual.map normalize_whitespace)
      let app := eset.filter (fun x => !(aset.contains x))
      let rem := aset.filter (fun x => !(eset.contains x))
      if app.isEmpty && rem.isEmpty then .ok (st, [])
      else do
        let st' ← applyAdminEdit st app rem
        .ok (st', [RAction.editAdminCerts app rem])

/-- Modelled from the spec (RETURN block of the module, `OrderingServiceNode`
of `module_utils/ordering_services.py` and
`extract_ordering_service_node_info`, not among the analysed sources):
the returned ordering-service-node value is the projection of the
stored component onto the documented result fields, with
`display_name` exposed as `name`. -/
def projTable : List (String × String) :=
  [("name", "display_name"), ("api_url", "api_url"),
   ("operations_url", "operations_url"), ("grpcwp_url", "grpcwp_url"),
   ("msp_id", "msp_id"), ("pem", "pem"),
   ("tls_ca_root_cert", "tls_ca_root_cert"), ("tls_cert", "tls_cert"),
   ("location", "location"), ("system_channel_id", "system_channel_id"),
   ("client_tls_cert", "client_tls_cert"),
   ("server_tls_cert", "server_tls_cert"), ("cluster_id", "cluster_id"),
   ("cluster_name", "cluster_name"),
   ("consenter_proposal_fin", "consenter_proposal_fin")]

/-- Projection of a stored component onto the documented result
fields. -/
def projectNode (n : KVs) : KVs :=
  projTable.filterMap (fun kv => (lookupKV n kv.2).map (fun v => (kv.1, v)))

/-- Shared tail of both branches (source lines 908–915): read
`consenter_proposal_fin` from the final node value, wait for readiness
only when it is truthy, and return the projected node. -/
def finishRun (c : Console) (var st : KVs) (acts : List RAction)
    (changed : Bool) : Except RErr RunResult :=
  match lookupKV var "consenter_proposal_fin" with
  | none => .error (.pyKeyError "consenter_proposal_fin")
  | some finV =>
    .ok ⟨⟨some st, c.clusterInfo, c.ca, c.resolveOSN, c.resolvePeer⟩,
         changed, some (projectNode var),
         if isTruthy finV then acts ++ [RAction.waitReady] else acts⟩

/-- The update branch of `main` after the resource scrub (source
lines 799–915): build the caller overlay resolving the version via
`resolve_peer_version`, merge it over a copy of the scrubbed observed
state `o'`, guard the diff against non-permitted changes, substitute
the full resources subtree into the payload when the caller supplied
resources, submit the update when the merged state differs, reconcile
admin certificates incrementally, submit the config block and mark the
consenter flag when the node is not yet in the system channel, then
extract the result and wait when joined.  `o` is the unscrubbed stored
node the console applies updates to. -/
def runUpdateBody (c : Console) (p : OsnParams) (o o' : KVs) :
    Except RErr RunResult :=
    let ov := buildOverlay c.resolvePeer p
    let nw := mergeKV (copyKVs o') ov
    let d0 := diffKV o' nw
    match findIllegal d0 with
    | some f => .error (.illegalChange f (lookupKV o' f) (lookupKV nw f))
    | none =>
      match mkPayload p d0 nw with
      | .error e => .error e
      | .ok d =>
        let changedUpd := !(Value.equal (.vobj o') (.vobj nw))
        let var := if changedUpd then applyUpdateStored o d else o'
        let st := if changedUpd then applyUpdateStored o d else o
        let acts := overlayActions p ++
          (if changedUpd then [RAction.updateNode d] else [])
        match adminStep p var st with
        | .error e => .error e
        | .ok (st2, editActs) =>
          match lookupKV var "consenter_proposal_fin" with
          | none => .error (.pyKeyError "consenter_proposal_fin")
          | some finV =>
            match (if isTruthy finV then none else p.config_block) with
            | some blob =>
              let st3 := setKV st2 "consenter_proposal_fin" (.vbool true)
              finishRun c st3 st3
                (acts ++ editActs ++ [RAction.submitConfigBlock blob, RAction.editNodeFin])
                true
            | none =>
              finishRun c var st2 (acts ++ editActs)
                (changedUpd || !editActs.isEmpty)

/-- The update branch of `main`: scrub the observed resources, then
run the body on the scrubbed state. -/
def runUpdateBranch (c : Console) (p : OsnParams) (o : KVs) :
    Except RErr RunResult :=
  match scrubObserved o with
  | .error e => .error e
  | .ok o' => runUpdateBody c p o o'

/-- The default orderer/proxy resource requests of the create path
(source lines 637–651). -/
def defaultResources : KVs :=
  [("orderer", .vobj [("requests", .vobj
      [("cpu", .vstr "250m"), ("memory", .vstr "500M")])]),
   ("proxy", .vobj [("requests", .vobj
      [("cpu", .vstr "100m"), ("memory", .vstr "200M")])])]

/-- The storage-class strip of the create path (source lines
708–715): drop an explicit null `class` from each storage section. -/
def stripStorageClass (st : KVs) : KVs :=
  st.map (fun kv =>
    match kv.2 with
    | .vobj o =>
      (kv.1, .vobj (match lookupKV o "class" with
                    | some .vnull => delKV o "class"
                    | _ => o))
    | _ => kv)

/-- The configuration override injected for HSM use (source lines
745–755). -/
def hsmOverride (h : Hsm) : KVs :=
  [("General", .vobj
     [("BCCSP", .vobj
        [("Default", .vstr "PKCS11"),
         ("PKCS11", .vobj
            [("Label", .vstr h.label), ("Pin", .vstr h.pin)])])])]

/-- The crypto enrollment configuration of the create path
(`get_crypto` and helpers, source lines 499–551): fails when no
certificate authority parameter or console record is available. -/
def getCrypto (c : Console) (p : OsnParams) : Except RErr KVs :=
  match p.certificate_authority with
  | none => .error (.validationError "certificate_authority")
  | some _ =>
    match c.ca with
    | none => .error (.remoteError "certificate authority not found")
    | some ca =>
      let admins := (p.admins.getD []).map Value.vstr
      .ok [("enrollment", .vobj
        [("component", .vobj [("admincerts", .varr admins)]),
         ("ca", .vobj
            [("host", .vstr ca.host), ("port", .vstr ca.port),
             ("name", .vstr ca.caName), ("tls_cert", .vstr ca.pem),
             ("enroll_id", .vstr (p.enrollment_id.getD "")),
             ("enroll_secret", .vstr (p.enrollment_secret.getD ""))]),
         ("tlsca", .vobj
            [("host", .vstr ca.host), ("port", .vstr ca.port),
             ("name", .vstr ca.tlscaName), ("tls_cert", .vstr ca.pem),
             ("enroll_id", .vstr (p.enrollment_id.getD "")),
             ("enroll_secret", .vstr (p.enrollment_secret.getD ""))])])]

/-- Replace a single-element list value back by its element, the
inverse of the batch-shape wrapping. -/
def unwrapKey (e : KVs) (k : String) : KVs :=
  match lookupKV e k with
  | some (.varr [v]) => setKV e k v
  | _ => e

/-- Modelled from the spec (§6 `create`, §3 server-assigned fields):
creating from the batch-shaped spec stores the node with the wrapped
fields unwrapped, a server-assigned id, `consenter_proposal_fin`
false, and the admin certificates taken from the submitted enrollment
configuration. -/
def createdNodeFromSpec (p : OsnParams) (e : KVs) : KVs :=
  unwrapKey (unwrapKey (unwrapKey e "config_override") "zone") "crypto" ++
  [("id", Value.vstr "node-1"),
   ("consenter_proposal_fin", Value.vbool false),
   ("admin_certs", Value.varr ((p.admins.getD []).map Value.vstr))]

/-- The initial expected node of the create path (source lines
708–731): the literal dictionary with the storage class stripped and
the default resources merged under the caller's. -/
def createSpecBase (cluster_id cluster_name mspId : String)
    (p : OsnParams) : KVs :=
  [("display_name", .vstr p.name),
   ("cluster_id", .vstr cluster_id),
   ("cluster_name", .vstr cluster_name),
   ("msp_id", .vstr mspId),
   ("orderer_type", .vstr p.orderer_type),
   ("system_channel_id", .vstr p.system_channel_id),
   ("config_override", .vobj (p.config_override.getD [])),
   ("resources", .vobj (mergeKV (copyKVs defaultResources) (p.resources.getD []))),
   ("storage", .vobj (stripStorageClass p.storage))]

/-- The HSM addition of the create path (source lines 739–756). -/
def addHsmSpec (p : OsnParams) (e : KVs) : KVs :=
  match p.hsm with
  | some h =>
    let e :=
      match h.pkcs11endpoint with
      | some ep =>
        if ep.isEmpty then e
        else setKV e "hsm" (.vobj [("pkcs11endpoint", .vstr ep)])
      | none => e
    match lookupKV e "config_override" with
    | some (.vobj co) =>
      setKV e "config_override" (.vobj (mergeKV co (hsmOverride h)))
    | _ => e
  | none => e

/-- The zone addition of the create path (source lines 758–761). -/
def addZoneSpec (p : OsnParams) (e : KVs) : KVs :=
  match p.zone with
  | some z => setKV e "zone" (.vstr z)
  | none => e

/-- The version addition of the create path (source lines 763–767),
returning the version-resolution console call made. -/
def addVersionSpec (c : Console) (p : OsnParams) (e : KVs) :
    KVs × List RAction :=
  match p.version with
  | some v =>
    (setKV e "version" (.vstr (c.resolveOSN v)), [RAction.resolveOSN v])
  | none => (e, [])

/-- The single-element-list wrapping of `config_override` and `zone`
for the batch-shaped creation call (source lines 769–774). -/
def wrapBatchSpec (p : OsnParams) (e : KVs) : KVs :=
  let e := setKV e "config_override"
    (.varr [(lookupKV e "config_override").getD .vnull])
  match p.zone with
  | some z => setKV e "zone" (.varr [.vstr z])
  | none => e

/-- The create branch of `main` (source lines 688–787 and the shared
tail): re-validate the create-only parameter requirements, strip the
storage class, merge the default resources under the caller's, build
the expected node, add HSM, zone and resolved version when supplied,
wrap `config_override`, `zone` and `crypto` into single-element lists
for the batch-shaped creation call, create the node and return it. -/
def runCreateBranch (c : Console) (p : OsnParams) : Except RErr RunResult :=
  if p.ordering_service.isNone then .error (.validationError "ordering_service")
  else
    match c.clusterInfo with
    | none => .error (.remoteError "ordering service not found")
    | some (cluster_id, cluster_name) =>
      match p.msp_id with
      | none => .error (.validationError "msp_id")
      | some mspId =>
        if p.certificate_authority.isNone && p.crypto.isNone then
          .error (.validationError "one of certificate_authority or crypto is required")
        else if p.certificate_authority.isSome && p.crypto.isSome then
          .error (.validationError "certificate_authority and crypto are mutually exclusive")
        else if p.certificate_authority.isSome &&
            (p.enrollment_id.isNone || p.enrollment_secret.isNone || p.admins.isNone) then
          .error (.validationError "certificate_authority requires enrollment_id, enrollment_secret and admins")
        else
          let (e, acts) :=
            addVersionSpec c p
              (addZoneSpec p (addHsmSpec p (createSpecBase cluster_id cluster_name mspId p)))
          let e := wrapBatchSpec p e
          match getCrypto c p with
          | .error err => .error err
          | .ok crypto =>
            let e := setKV e "crypto" (.varr [.vobj crypto])
            let stored := createdNodeFromSpec p e
            finishRun c stored stored (acts ++ [RAction.createNode e]) true

/-- The entry point of `main` (source lines 619–915): fetch the node
by display name, classify absence/corruption, handle the absent state,
delete a corrupt entry before re-creating, and dispatch to the create
or update branch.  The dead store of source line 687 (resetting
`changed` after the corrupt-entry deletion) is preserved: a corrupt
deletion's `changed` is superseded by the following create. -/
def reconcile (c : Console) (p : OsnParams) : Except RErr RunResult :=
  let corrupt :=
    match c.node with
    | some fs => (lookupKV fs "deployment_attrs_missing").isSome
    | none => false
  if p.state = "absent" then
    match c.node with
    | some _ =>
      .ok ⟨⟨none, c.clusterInfo, c.ca, c.resolveOSN, c.resolvePeer⟩,
           true, none, [RAction.deleteNode]⟩
    | none => .ok ⟨c, false, none, []⟩
  else
    if corrupt then
      (runCreateBranch
        ⟨none, c.clusterInfo, c.ca, c.resolveOSN, c.resolvePeer⟩ p).map
        (fun r => ⟨r.console, r.changed, r.output, RAction.deleteExtNode :: r.actions⟩)
    else
      match c.node with
      | none => runCreateBranch c p
      | some o => runUpdateBranch c p o

/-- The section under `key` carries no `limits` entry (trivially true
when it is not a dictionary). -/
def limitsClean (res : KVs) (key : String) : Bool :=
  match lookupKV res key with
  | some (.vobj o) => (lookupKV o "limits").isNone
  | _ => true

/-- A resources dictionary free of the server-managed fields that the
update path scrubs: no `init` key, and no `limits` key under an
`orderer` or `proxy` dictionary. -/
def scrubClean (res : KVs) : Bool :=
  (lookupKV res "init").isNone &&
  limitsClean res "orderer" && limitsClean res "proxy"

/-- Whether the caller's resources parameter avoids the scrubbed
fields (trivially true when resources is unset). -/
def resourcesParamClean (p : OsnParams) : Bool :=
  match p.resources with
  | some r => scrubClean r
  | none => true

/-- Whether the caller's dictionary-valued update parameters are
well-formed embedded dictionaries (always true of actual Python
input). -/
def paramsWf (p : OsnParams) : Bool :=
  (match p.config_override with
   | some v => Value.wf (.vobj v)
   | none => true) &&
  (match p.resources with
   | some v => Value.wf (.vobj v)
   | none => true) &&
  (match p.crypto with
   | some v => Value.wf (.vobj v)
   | none => true)

/-- Whether the console's stored node (if any) is a well-formed
embedded dictionary (always true of actual console data). -/
def consoleNodeWf (c : Console) : Bool :=
  match c.node with
  | some fs => Value.wf (.vobj fs)
  | none => true

/-- The observed and merged states differ at key `k` in the sense of
the shallow diff: `k` is present in `b` and either absent from `a` or
carrying a deeply different value. -/
def differsAt (a b : KVs) (k : String) : Bool :=
  match lookupKV b k with
  | some v =>
    (match lookupKV a k with
     | some w => !(Value.equal w v)
     | none => true)
  | none => false

/-- The node stored by the console is present and classified clean
(no `deployment_attrs_missing` marker). -/
def nodeCleanExists (c : Console) : Bool :=
  match c.node with
  | some fs => (lookupKV fs "deployment_attrs_missing").isNone
  | none => false

end Reconciler

section Fixtures

/-- A sample MSP config tree whose stored `name` differs from the
`msp_id` the parser is invoked with. -/
def mspTreeNamed : Value :=
  .vobj [("values", .vobj
    [("MSP", .vobj
       [("value", .vobj
          [("config", .vobj
             [("name", .vstr "NotTheMspId"),
              ("root_certs", .varr [.vstr "r"]),
              ("intermediate_certs", .varr []),
              ("admins", .varr []),
              ("revocation_list", .varr []),
              ("tls_root_certs", .varr []),
              ("tls_intermediate_certs", .varr []),
              ("fabric_node_ous", .vobj []),
              ("organizational_unit_identifiers", .varr [])])])])])]

/-- The organization parsed from `mspTreeNamed` under msp id `M`. -/
def orgNamed : Organization :=
  ⟨"M", "M", .varr [.vstr "r"], .varr [], .varr [], .varr [], .varr [],
   .varr [], .vobj [], .varr [], .vnull⟩

/-- A clean observed ordering service node as stored by the console. -/
def osnNodeEx : KVs :=
  [("id", .vstr "osn1"), ("display_name", .vstr "Orderer1"),
   ("msp_id", .vstr "Org1MSP"),
   ("config_override", .vobj []),
   ("resources", .vobj
      [("orderer", .vobj [("requests", .vobj [("cpu", .vstr "250m")])]),
       ("proxy", .vobj [("requests", .vobj [("cpu", .vstr "100m")])])]),
   ("consenter_proposal_fin", .vbool true)]

/-- A console holding `osnNodeEx` under the module's display name. -/
def osnConsoleEx : Console :=
  ⟨some osnNodeEx, some ("cluster1", "Ordering Service"), none,
   fun v => "osn-" ++ v, fun v => "peer-" ++ v⟩

/-- Present-state module parameters for the fixtures, varying the
fields relevant to the update path. -/
def mkParams (msp_id : Option String) (config_override resources crypto : Option KVs)
    (version : Option String) (admins : Option (List String))
    (config_block : Option String) : OsnParams :=
  ⟨"present", "Orderer1", some "Ordering Service", msp_id, "raft",
   "testchainid", config_block, none, none, none, admins, crypto,
   config_override, resources,
   [("orderer", Value.vobj [("size", Value.vstr "100Gi")])], none, none, version⟩

/-- Parameters that try to change the node's MSP ID on the update path. -/
def c3Params : OsnParams :=
  mkParams (some "Org2MSP") (some []) none none none none none

/-- The merged new state of the update path: the caller overlay merged
over a copy of the scrubbed observed state. -/
def newState (c : Console) (p : OsnParams) (o' : KVs) : KVs :=
  mergeKV (copyKVs o') (buildOverlay c.resolvePeer p)

/-- Whether a run issued an update console call. -/
def hasUpdateNode : List RAction → Bool
  | [] => false
  | .updateNode _ :: _ => true
  | _ :: t => hasUpdateNode t

/-- The payloads of the update console calls of a run, in order. -/
def updatePayloads : List RAction → List KVs
  | [] => []
  | .updateNode d :: t => d :: updatePayloads t
  | _ :: t => updatePayloads t

/-- The `(append, remove)` pairs of the admin-certificate edit console
calls of a run, in order. -/
def adminEdits : List RAction → List (List String × List String)
  | [] => []
  | .editAdminCerts a b :: t => (a, b) :: adminEdits t
  | _ :: t => adminEdits t

/-- Whether a run invoked the console's peer version resolution. -/
def hasResolvePeer : List RAction → Bool
  | [] => false
  | .resolvePeer _ :: _ => true
  | _ :: t => hasResolvePeer t

/-- Whether a run invoked the console's ordering-service-node version
resolution. -/
def hasResolveOSN : List RAction → Bool
  | [] => false
  | .resolveOSN _ :: _ => true
  | _ :: t => hasResolveOSN t

/-- Update-path parameters carrying a version range specifier. -/
def c2UpdateParams : OsnParams :=
  mkParams (some "Org1MSP") (some []) none none (some ">=2.2,<3.0") none none

/-- Create-path parameters carrying the same version range specifier
(certificate-authority enrollment path). -/
def c2CreateParams : OsnParams :=
  ⟨"present", "Orderer1", some "Ordering Service", some "Org1MSP", "raft",
   "testchainid", none, some "Orderer CA", some "orderer1", some "orderer1pw",
   some ["certA"], none, some [], none,
   [("orderer", Value.vobj [("size", Value.vstr "100Gi")])], none, none,
   some ">=2.2,<3.0"⟩

/-- A console with no node stored, where the two version-resolution
operations resolve the same range differently. -/
def c2CreateConsole : Console :=
  ⟨none, some ("cluster1", "Ordering Service"),
   some ⟨"ca.example.org", "7054", "ca", "tlsca", "base64pem"⟩,
   fun v => "osn-" ++ v, fun v => "peer-" ++ v⟩

/-- A caller resources dictionary naming the server-managed
`orderer.limits` field that the update path scrubs. -/
def c10Res : KVs :=
  [("orderer", .vobj [("requests", .vobj [("cpu", .vstr "250m")]),
                      ("limits", .vobj [("cpu", .vstr "700m")])]),
   ("proxy", .vobj [("requests", .vobj [("cpu", .vstr "100m")])])]

/-- An observed node identical to the desired state of the
counterexample parameters below: its `resources` and `config_override`
are exactly the caller's. -/
def c10Node : KVs :=
  [("id", .vstr "osn1"), ("display_name", .vstr "Orderer1"),
   ("msp_id", .vstr "Org1MSP"),
   ("config_override", .vobj []),
   ("resources", .vobj c10Res),
   ("consenter_proposal_fin", .vbool true)]

/-- A console holding `c10Node` under the module's display name. -/
def c10Console : Console :=
  ⟨some c10Node, some ("cluster1", "Ordering Service"), none,
   fun v => "osn-" ++ v, fun v => "peer-" ++ v⟩

/-- Parameters whose overlay matches `c10Node` exactly: the observed
state differs from the desired overlay nowhere at all. -/
def c10CexParams : OsnParams :=
  mkParams (some "Org1MSP") (some []) (some c10Res) none none none none

/-- Parameters whose overlay is absorbed by the fixture node. -/
def c10AbsorbParams : OsnParams :=
  mkParams (some "Org1MSP") (some []) none none none none none

/-- The resources of `osnNodeEx` as a standalone dictionary. -/
def c10ObsRes : KVs :=
  [("orderer", .vobj [("requests", .vobj [("cpu", .vstr "250m")])]),
   ("proxy", .vobj [("requests", .vobj [("cpu", .vstr "100m")])])]

/-- The result of reconciling `c10AbsorbParams` against the fixture
console. -/
def c10AbsorbResult : RunResult :=
  (reconcile osnConsoleEx c10AbsorbParams).toOption.getD default

/-- Update-path parameters supplying a version, so that the merged new
state differs from the observed fixture node. -/
def c6Params : OsnParams :=
  mkParams (some "Org1MSP") (some []) none none (some "2.5") none none

/-- The result of reconciling `c6Params` against the fixture
console. -/
def c6Result : RunResult :=
  (reconcile osnConsoleEx c6Params).toOption.getD default

/-- An observed node whose admin certificates are `B` and `C`. -/
def c5Node : KVs :=
  [("id", .vstr "osn1"), ("display_name", .vstr "Orderer1"),
   ("msp_id", .vstr "Org1MSP"),
   ("config_override", .vobj []),
   ("resources", .vobj
      [("orderer", .vobj [("requests", .vobj [("cpu", .vstr "250m")])]),
       ("proxy", .vobj [("requests", .vobj [("cpu", .vstr "100m")])])]),
   ("admin_certs", .varr [.vstr "B", .vstr "C"]),
   ("consenter_proposal_fin", .vbool true)]

/-- A console holding `c5Node` under the module's display name. -/
def c5Console : Console :=
  ⟨some c5Node, some ("cluster1", "Ordering Service"), none,
   fun v => "osn-" ++ v, fun v => "peer-" ++ v⟩

/-- Update-path parameters desiring admin certificates `A` and `B`. -/
def c5Params : OsnParams :=
  mkParams (some "Org1MSP") (some []) none none none (some ["A", "B"]) none

/-- The result of reconciling `c5Params` against `c5Console`. -/
def c5Result : RunResult :=
  (reconcile c5Console c5Params).toOption.getD default

end Fixtures

section Lemmas

theorem lookup_setKV_self (t : KVs) (k : String) (v : Value) :
    lookupKV (setKV t k v) k = some v := by
  induction t with
  | nil => simp [setKV, lookupKV]
  | cons kv t ih =>
    obtain ⟨k', v'⟩ := kv
    by_cases h : k' = k <;> simp [setKV, lookupKV, h, ih]

theorem lookup_setKV_ne (t : KVs) {k k' : String} (v : Value) (h : k' ≠ k) :
    lookupKV (setKV t k v) k' = lookupKV t k' := by
  induction t with
  | nil => simp [setKV, lookupKV, Ne.symm h]
  | cons kv t ih =>
    obtain ⟨k'', v''⟩ := kv
    by_cases h2 : k'' = k
    · subst h2
      simp [setKV, lookupKV, Ne.symm h]
    · simp [setKV, lookupKV, h2, ih]

theorem setKV_self {t : KVs} {k : String} {v : Value}
    (h : lookupKV t k = some v) : setKV t k v = t := by
  induction t with
  | nil => simp [lookupKV] at h
  | cons kv t ih =>
    obtain ⟨k', v'⟩ := kv
    by_cases h2 : k' = k
    · subst h2
      simp [lookupKV] at h
      simp [setKV, h]
    · rw [lookupKV] at h
      simp only [h2, if_false] at h
      simp [setKV, h2, ih h]

theorem lookup_mem {t : KVs} {k : String} {v : Value}
    (h : lookupKV t k = some v) : (k, v) ∈ t := by
  induction t with
  | nil => simp [lookupKV] at h
  | cons kv t ih =>
    obtain ⟨k', v'⟩ := kv
    by_cases h2 : k' = k
    · subst h2
      simp [lookupKV] at h
      simp [h]
    · rw [lookupKV] at h
      simp only [h2, if_false] at h
      exact List.mem_cons_of_mem _ (ih h)

theorem lookup_isSome_of_mem_keys {t : KVs} {k : String}
    (h : k ∈ keysOf t) : (lookupKV t k).isSome = true := by
  induction t with
  | nil => simp [keysOf] at h
  | cons kv t ih =>
    obtain ⟨k', v'⟩ := kv
    by_cases h2 : k' = k
    · simp [lookupKV, h2]
    · rw [keysOf] at h
      simp only [List.map_cons, List.mem_cons] at h
      rcases h with h | h
      · exact absurd h.symm h2
      · simp only [lookupKV, h2, if_false]
        exact ih h

theorem mem_keys_of_lookup_isSome {t : KVs} {k : String}
    (h : (lookupKV t k).isSome = true) : k ∈ keysOf t := by
  induction t with
  | nil => simp [lookupKV] at h
  | cons kv t ih =>
    obtain ⟨k', v'⟩ := kv
    by_cases h2 : k' = k
    · simp [keysOf, h2]
    · rw [lookupKV] at h
      simp only [h2, if_false] at h
      simp only [keysOf, List.map_cons, List.mem_cons]
      exact Or.inr (ih h)

theorem keys_contains_of_mem {t : KVs} {k : String} {v : Value}
    (h : (k, v) ∈ t) : (keysOf t).contains k = true := by
  induction t with
  | nil => simp at h
  | cons kv t ih =>
    rcases List.mem_cons.mp h with h | h
    · subst h
      simp [keysOf]
    · simp only [keysOf, List.map_cons]
      simp [keysOf]
      exact Or.inr ⟨v, h⟩

theorem lookup_of_mem_nodup {t : KVs} {k : String} {v : Value}
    (hn : nodupKeys (keysOf t) = true) (h : (k, v) ∈ t) :
    lookupKV t k = some v := by
  induction t with
  | nil => simp at h
  | cons kv t ih =>
    obtain ⟨k', v'⟩ := kv
    simp only [keysOf, List.map_cons, nodupKeys, Bool.and_eq_true,
               Bool.not_eq_true'] at hn
    rcases List.mem_cons.mp h with h | h
    · injection h with hh1 hh2
      subst hh1
      subst hh2
      simp [lookupKV]
    · have hk : k' ≠ k := by
        intro he
        subst he
        have hc := keys_contains_of_mem h
        simp only [keysOf] at hc
        rw [hn.1] at hc
        exact absurd hc (by simp)
      simp only [lookupKV, hk, if_false]
      exact ih hn.2 h

theorem nodupKeys_iff {l : List String} : nodupKeys l = true ↔ l.Nodup := by
  induction l with
  | nil => simp [nodupKeys]
  | cons a l ih =>
    simp only [nodupKeys, Bool.and_eq_true, Bool.not_eq_true', List.nodup_cons]
    constructor
    · intro ⟨h1, h2⟩
      exact ⟨by simpa using h1, ih.mp h2⟩
    · intro ⟨h1, h2⟩
      exact ⟨by simpa using h1, ih.mpr h2⟩

theorem keysOf_cons (kv : String × Value) (t : KVs) :
    keysOf (kv :: t) = kv.1 :: keysOf t := rfl

theorem lookup_delKV_self (t : KVs) (k : String) :
    lookupKV (delKV t k) k = none := by
  induction t with
  | nil => rfl
  | cons kv t ih =>
    obtain ⟨k', v'⟩ := kv
    by_cases h : k' = k
    · simpa [delKV, h] using ih
    · simpa [delKV, h, lookupKV] using ih

theorem lookup_delKV_ne (t : KVs) {k k' : String} (h : k' ≠ k) :
    lookupKV (delKV t k) k' = lookupKV t k' := by
  induction t with
  | nil => rfl
  | cons kv t ih =>
    obtain ⟨k'', v''⟩ := kv
    by_cases h2 : k'' = k
    · subst h2
      simpa [delKV, lookupKV, Ne.symm h] using ih
    · by_cases h3 : k'' = k'
      · subst h3
        simp [delKV, lookupKV, h2]
      · simpa [delKV, lookupKV, h2, h3] using ih

theorem keysOf_delKV_sub {t : KVs} {k k' : String}
    (h : k' ∈ keysOf (delKV t k)) : k' ∈ keysOf t := by
  induction t with
  | nil => simpa [delKV] using h
  | cons kv t ih =>
    obtain ⟨k'', v''⟩ := kv
    by_cases h2 : k'' = k
    · rw [delKV, if_pos h2] at h
      exact List.mem_cons_of_mem _ (ih h)
    · rw [delKV, if_neg h2, keysOf_cons] at h
      rcases List.mem_cons.mp h with h | h
      · exact h ▸ List.mem_cons_self _ _
      · exact List.mem_cons_of_mem _ (ih h)

theorem nodupKeys_delKV {t : KVs} (k : String)
    (hn : nodupKeys (keysOf t) = true) :
    nodupKeys (keysOf (delKV t k)) = true := by
  induction t with
  | nil => exact hn
  | cons kv t ih =>
    obtain ⟨k', v'⟩ := kv
    rw [keysOf_cons] at hn
    rw [nodupKeys_iff, List.nodup_cons] at hn
    by_cases h2 : k' = k
    · rw [delKV, if_pos h2]
      exact ih (nodupKeys_iff.mpr hn.2)
    · rw [delKV, if_neg h2, keysOf_cons, nodupKeys_iff, List.nodup_cons]
      refine ⟨fun hm => hn.1 (keysOf_delKV_sub hm), ?_⟩
      rw [← nodupKeys_iff]
      exact ih (nodupKeys_iff.mpr hn.2)

theorem keysOf_setKV_mem {t : KVs} {k : String} (v : Value)
    (h : k ∈ keysOf t) : keysOf (setKV t k v) = keysOf t := by
  induction t with
  | nil => simp [keysOf] at h
  | cons kv t ih =>
    obtain ⟨k', v'⟩ := kv
    by_cases h2 : k' = k
    · rw [setKV, if_pos h2, keysOf_cons, keysOf_cons, h2]
    · rw [keysOf_cons] at h
      rcases List.mem_cons.mp h with h | h
      · exact absurd h.symm h2
      · rw [setKV, if_neg h2, keysOf_cons, keysOf_cons, ih h]

theorem keysOf_setKV_notMem {t : KVs} {k : String} (v : Value)
    (h : ¬ k ∈ keysOf t) : keysOf (setKV t k v) = keysOf t ++ [k] := by
  induction t with
  | nil => simp [setKV, keysOf]
  | cons kv t ih =>
    obtain ⟨k', v'⟩ := kv
    rw [keysOf_cons] at h
    simp only [List.mem_cons, not_or] at h
    have h2 : ¬ k' = k := fun he => h.1 he.symm
    rw [setKV, if_neg h2, keysOf_cons, keysOf_cons, ih h.2, List.cons_append]

theorem nodupKeys_setKV {t : KVs} (k : String) (v : Value)
    (hn : nodupKeys (keysOf t) = true) :
    nodupKeys (keysOf (setKV t k v)) = true := by
  by_cases h : k ∈ keysOf t
  · rw [keysOf_setKV_mem v h]
    exact hn
  · rw [keysOf_setKV_notMem v h, nodupKeys_iff, List.nodup_append]
    rw [nodupKeys_iff] at hn
    refine ⟨hn, List.nodup_singleton k, ?_⟩
    intro a ha hb
    rw [List.mem_singleton] at hb
    subst hb
    exact h ha

theorem merge_keys_sub {s t : KVs} {k : String}
    (h : k ∈ keysOf (mergeKV t s)) : k ∈ keysOf t ∨ k ∈ keysOf s := by
  induction s generalizing t with
  | nil => exact Or.inl h
  | cons kv s ih =>
    obtain ⟨k', v'⟩ := kv
    rw [mergeKV] at h
    rcases ih h with h | h
    · by_cases h2 : k' ∈ keysOf t
      · rw [keysOf_setKV_mem _ h2] at h
        exact Or.inl h
      · rw [keysOf_setKV_notMem _ h2] at h
        rcases List.mem_append.mp h with h | h
        · exact Or.inl h
        · simp only [List.mem_singleton] at h
          subst h
          exact Or.inr (by simp [keysOf_cons])
    · exact Or.inr (by simp [keysOf_cons, h])

theorem nodupKeys_merge (s : KVs) {t : KVs}
    (hn : nodupKeys (keysOf t) = true) :
    nodupKeys (keysOf (mergeKV t s)) = true := by
  induction s generalizing t with
  | nil => exact hn
  | cons kv s ih =>
    obtain ⟨k', v'⟩ := kv
    rw [mergeKV]
    exact ih (nodupKeys_setKV k' _ hn)

theorem merge_lookup_notin {s t : KVs} {k : String}
    (h : ¬ k ∈ keysOf s) : lookupKV (mergeKV t s) k = lookupKV t k := by
  induction s generalizing t with
  | nil => rfl
  | cons kv s ih =>
    obtain ⟨k', v'⟩ := kv
    rw [keysOf_cons] at h
    simp only [List.mem_cons, not_or] at h
    rw [mergeKV, ih h.2, lookup_setKV_ne _ _ h.1]

theorem merge_lookup_in {s t : KVs} {k : String} {v : Value}
    (hn : nodupKeys (keysOf s) = true) (h : (k, v) ∈ s) :
    lookupKV (mergeKV t s) k = some (mergeOneVal (lookupKV t k) v) := by
  induction s generalizing t with
  | nil => simp at h
  | cons kv s ih =>
    obtain ⟨k', v'⟩ := kv
    rw [keysOf_cons] at hn
    rw [nodupKeys_iff, List.nodup_cons] at hn
    rcases List.mem_cons.mp h with h | h
    · injection h with hh1 hh2
      subst hh1
      subst hh2
      rw [mergeKV]
      have hnotin : ¬ k ∈ keysOf s := hn.1
      rw [merge_lookup_notin hnotin, lookup_setKV_self]
    · have hk : k' ≠ k := by
        intro he
        subst he
        exact hn.1 (by
          have := keys_contains_of_mem h
          exact (List.elem_iff).mp this)
      rw [mergeKV, ih (nodupKeys_iff.mpr hn.2) h,
          lookup_setKV_ne _ _ (Ne.symm hk)]

mutual

theorem copyVal_id : ∀ v : Value, copyVal v = v
  | .vnull => rfl
  | .vbool _ => rfl
  | .vstr _ => rfl
  | .vint _ => rfl
  | .varr xs => by rw [copyVal, copyList_id xs]
  | .vobj fs => by rw [copyVal, copyKVs_id fs]

theorem copyList_id : ∀ xs : List Value, copyList xs = xs
  | [] => rfl
  | x :: xs => by rw [copyList, copyVal_id x, copyList_id xs]

theorem copyKVs_id : ∀ t : KVs, copyKVs t = t
  | [] => rfl
  | (k, v) :: t => by rw [copyKVs, copyVal_id v, copyKVs_id t]

end

theorem wf_vobj_iff {t : KVs} :
    Value.wf (.vobj t) = true ↔
      (nodupKeys (keysOf t) = true ∧ wfKVs t = true) := by
  rw [Value.wf, Bool.and_eq_true]

theorem wfKVs_cons_iff {k : String} {v : Value} {t : KVs} :
    wfKVs ((k, v) :: t) = true ↔ (v.wf = true ∧ wfKVs t = true) := by
  rw [wfKVs, Bool.and_eq_true]

theorem wf_of_lookup : ∀ {t : KVs} {k : String} {v : Value},
    wfKVs t = true → lookupKV t k = some v → v.wf = true := by
  intro t
  induction t with
  | nil => intro k v _ h; simp [lookupKV] at h
  | cons kv t ih =>
    intro k v hw h
    obtain ⟨k', v'⟩ := kv
    rw [wfKVs_cons_iff] at hw
    rw [lookupKV] at h
    by_cases h2 : k' = k
    · rw [if_pos h2] at h
      injection h with h
      exact h ▸ hw.1
    · rw [if_neg h2] at h
      exact ih hw.2 h

theorem wfKVs_setKV : ∀ {t : KVs} (k : String) {v : Value},
    wfKVs t = true → v.wf = true → wfKVs (setKV t k v) = true := by
  intro t
  induction t with
  | nil => intro k v _ hv; simpa [setKV, wfKVs] using hv
  | cons kv t ih =>
    intro k v hw hv
    obtain ⟨k', v'⟩ := kv
    rw [wfKVs_cons_iff] at hw
    rw [setKV]
    by_cases h2 : k' = k
    · rw [if_pos h2, wfKVs_cons_iff]
      exact ⟨hv, hw.2⟩
    · rw [if_neg h2, wfKVs_cons_iff]
      exact ⟨hw.1, ih k hw.2 hv⟩

theorem wf_vobj_setKV {t : KVs} (k : String) {v : Value}
    (hw : Value.wf (.vobj t) = true) (hv : v.wf = true) :
    Value.wf (.vobj (setKV t k v)) = true := by
  rw [wf_vobj_iff] at hw ⊢
  exact ⟨nodupKeys_setKV k v hw.1, wfKVs_setKV k hw.2 hv⟩

theorem wfKVs_delKV : ∀ {t : KVs} (k : String),
    wfKVs t = true → wfKVs (delKV t k) = true := by
  intro t
  induction t with
  | nil => intro k h; exact h
  | cons kv t ih =>
    intro k hw
    obtain ⟨k', v'⟩ := kv
    rw [wfKVs_cons_iff] at hw
    rw [delKV]
    by_cases h2 : k' = k
    · rw [if_pos h2]
      exact ih k hw.2
    · rw [if_neg h2, wfKVs_cons_iff]
      exact ⟨hw.1, ih k hw.2⟩

theorem wf_vobj_delKV {t : KVs} (k : String)
    (hw : Value.wf (.vobj t) = true) :
    Value.wf (.vobj (delKV t k)) = true := by
  rw [wf_vobj_iff] at hw ⊢
  exact ⟨nodupKeys_delKV k hw.1, wfKVs_delKV k hw.2⟩

mutual

theorem wf_mergeOneVal : ∀ (old : Option Value) (v : Value),
    (∀ w, old = some w → w.wf = true) → v.wf = true →
    (mergeOneVal old v).wf = true
  | old, .vnull, _, hv => by
    rcases old with _ | w
    · exact hv
    · cases w <;> exact hv
  | old, .vbool _, _, hv => by
    rcases old with _ | w
    · exact hv
    · cases w <;> exact hv
  | old, .vstr _, _, hv => by
    rcases old with _ | w
    · exact hv
    · cases w <;> exact hv
  | old, .vint _, _, hv => by
    rcases old with _ | w
    · exact hv
    · cases w <;> exact hv
  | old, .varr _, _, hv => by
    rcases old with _ | w
    · exact hv
    · cases w <;> exact hv
  | old, .vobj sv, hold, hv => by
    rcases old with _ | w
    · exact hv
    · cases w with
      | vobj tv =>
        rw [mergeOneVal]
        exact wf_mergeKVs sv tv (hold _ rfl) (wf_vobj_iff.mp hv).2
      | vnull => exact hv
      | vbool b => exact hv
      | vstr s => exact hv
      | vint n => exact hv
      | varr xs => exact hv

theorem wf_mergeKVs : ∀ (s : List (String × Value)) (t : List (String × Value)),
    Value.wf (.vobj t) = true → wfKVs s = true →
    Value.wf (.vobj (mergeKV t s)) = true
  | [], t, ht, _ => ht
  | (k, v) :: s, t, ht, hs => by
    rw [mergeKV]
    have hv := (wfKVs_cons_iff.mp hs).1
    have hx : (mergeOneVal (lookupKV t k) v).wf = true :=
      wf_mergeOneVal (lookupKV t k) v
        (fun w hw => wf_of_lookup (wf_vobj_iff.mp ht).2 hw) hv
    exact wf_mergeKVs s _ (wf_vobj_setKV k ht hx) (wfKVs_cons_iff.mp hs).2

end

theorem keysIn_of_forall {g a : KVs}
    (h : ∀ kv ∈ g, (lookupKV a kv.1).isSome = true) : keysIn g a = true := by
  rw [keysIn, List.all_eq_true]
  intro kv hm
  simpa using h kv hm

theorem equalEntries_of_forall : ∀ {t g : KVs},
    (∀ kv ∈ t, ∃ w, lookupKV g kv.1 = some w ∧ Value.equal kv.2 w = true) →
    equalEntries t g = true := by
  intro t
  induction t with
  | nil => intro g _; rfl
  | cons kv t ih =>
    intro g h
    obtain ⟨k, v⟩ := kv
    rw [equalEntries, Bool.and_eq_true]
    obtain ⟨w, hw, he⟩ := h (k, v) (List.mem_cons_self _ _)
    constructor
    · rw [hw]
      exact he
    · exact ih (fun kv hm => h kv (List.mem_cons_of_mem _ hm))

theorem equalEntries_mem : ∀ {t g : KVs},
    equalEntries t g = true → ∀ {k : String} {v : Value}, (k, v) ∈ t →
    ∃ w, lookupKV g k = some w ∧ Value.equal v w = true := by
  intro t
  induction t with
  | nil => intro g _ k v hm; simp at hm
  | cons kv t ih =>
    intro g h k v hm
    obtain ⟨k', v'⟩ := kv
    rw [equalEntries, Bool.and_eq_true] at h
    rcases List.mem_cons.mp hm with he | hm'
    · injection he with he1 he2
      subst he1
      subst he2
      rcases hl : lookupKV g k with _ | w
      · rw [hl] at h
        exact absurd h.1 (by simp)
      · rw [hl] at h
        exact ⟨w, rfl, h.1⟩
    · exact ih h.2 hm'

theorem keysIn_lookup {g a : KVs} (h : keysIn g a = true)
    {k : String} (hm : k ∈ keysOf g) : (lookupKV a k).isSome = true := by
  rw [keysIn, List.all_eq_true] at h
  simp only [keysOf, List.mem_map] at hm
  obtain ⟨kv, hkv, hk⟩ := hm
  subst hk
  simpa using h kv hkv

mutual

theorem equal_refl : ∀ (v : Value), v.wf = true → Value.equal v v = true
  | .vnull, _ => rfl
  | .vbool b, _ => by simp [Value.equal]
  | .vstr s, _ => by simp [Value.equal]
  | .vint n, _ => by simp [Value.equal]
  | .varr xs, h => by
    rw [Value.equal]
    exact equal_refl_list xs (by rw [Value.wf] at h; exact h)
  | .vobj fs, h => by
    rw [Value.equal, Bool.and_eq_true]
    constructor
    · exact equalEntries_of_forall (fun kv hm =>
        ⟨kv.2, lookup_of_mem_nodup (wf_vobj_iff.mp h).1
          (by obtain ⟨k, v⟩ := kv; exact hm),
         equal_refl_entries fs (wf_vobj_iff.mp h).2 kv hm⟩)
    · exact keysIn_of_forall (fun kv hm =>
        lookup_isSome_of_mem_keys
          (by simp only [keysOf, List.mem_map]; exact ⟨kv, hm, rfl⟩))

theorem equal_refl_list : ∀ (xs : List Value), wfList xs = true →
    equalList xs xs = true
  | [], _ => rfl
  | x :: xs, h => by
    rw [wfList, Bool.and_eq_true] at h
    rw [equalList, Bool.and_eq_true]
    exact ⟨equal_refl x h.1, equal_refl_list xs h.2⟩

theorem equal_refl_entries : ∀ (t : KVs), wfKVs t = true →
    ∀ kv ∈ t, Value.equal kv.2 kv.2 = true
  | [], _, kv, hm => absurd hm (by simp)
  | (k, v) :: t, h, kv, hm => by
    rw [wfKVs_cons_iff] at h
    rcases List.mem_cons.mp hm with he | hm'
    · subst he
      exact equal_refl v h.1
    · exact equal_refl_entries t h.2 kv hm'

end

theorem equal_of_pointwise {a b : KVs}
    (hna : nodupKeys (keysOf a) = true)
    (hab : ∀ k v, lookupKV a k = some v →
      ∃ w, lookupKV b k = some w ∧ Value.equal v w = true)
    (hba : ∀ k, (lookupKV b k).isSome = true → (lookupKV a k).isSome = true) :
    Value.equal (.vobj a) (.vobj b) = true := by
  rw [Value.equal, Bool.and_eq_true]
  constructor
  · exact equalEntries_of_forall (fun kv hm =>
      hab kv.1 kv.2 (lookup_of_mem_nodup hna
        (by obtain ⟨k, v⟩ := kv; exact hm)))
  · exact keysIn_of_forall (fun kv hm =>
      hba kv.1 (lookup_isSome_of_mem_keys
        (by simp only [keysOf, List.mem_map]; exact ⟨kv, hm, rfl⟩)))

theorem equal_lookup {a b : KVs}
    (h : Value.equal (.vobj a) (.vobj b) = true)
    {k : String} {v : Value} (hl : lookupKV a k = some v) :
    ∃ w, lookupKV b k = some w ∧ Value.equal v w = true := by
  rw [Value.equal, Bool.and_eq_true] at h
  exact equalEntries_mem h.1 (lookup_mem hl)

theorem equal_keysIn {a b : KVs}
    (h : Value.equal (.vobj a) (.vobj b) = true)
    {k : String} (hm : (lookupKV b k).isSome = true) :
    (lookupKV a k).isSome = true := by
  rw [Value.equal, Bool.and_eq_true] at h
  exact keysIn_lookup h.2 (mem_keys_of_lookup_isSome hm)

theorem wf_vobj_tail {kv : String × Value} {t : KVs}
    (h : Value.wf (.vobj (kv :: t)) = true) :
    Value.wf (.vobj t) = true := by
  obtain ⟨k, v⟩ := kv
  rw [wf_vobj_iff] at h ⊢
  obtain ⟨hn, hw⟩ := h
  rw [keysOf_cons] at hn
  rw [nodupKeys_iff, List.nodup_cons] at hn
  exact ⟨nodupKeys_iff.mpr hn.2, (wfKVs_cons_iff.mp hw).2⟩

mutual

theorem mergeAbsorb : ∀ (s : List (String × Value)) (t : List (String × Value)),
    Value.wf (.vobj s) = true →
    (∀ kv ∈ s, lookupKV t kv.1 = some kv.2) → mergeKV t s = t
  | [], t, _, _ => rfl
  | (k, v) :: s, t, hw, habs => by
    rw [mergeKV]
    have hl : lookupKV t k = some v := habs (k, v) (List.mem_cons_self _ _)
    have hx : mergeOneVal (lookupKV t k) v = v := by
      rw [hl]
      cases v with
      | vobj sv =>
        rw [mergeOneVal]
        have hsv : Value.wf (.vobj sv) = true :=
          (wfKVs_cons_iff.mp (wf_vobj_iff.mp hw).2).1
        rw [mergeAbsorb sv sv hsv
          (fun kv hm => lookup_of_mem_nodup (wf_vobj_iff.mp hsv).1 hm)]
      | vnull => rfl
      | vbool b => rfl
      | vstr s => rfl
      | vint n => rfl
      | varr xs => rfl
    rw [hx, setKV_self hl]
    exact mergeAbsorb s t (wf_vobj_tail hw)
      (fun kv hm => habs kv (List.mem_cons_of_mem _ hm))

end

theorem mergeSelf {s : List (String × Value)}
    (hw : Value.wf (.vobj s) = true) : mergeKV s s = s :=
  mergeAbsorb s s hw
    (fun kv hm => lookup_of_mem_nodup (wf_vobj_iff.mp hw).1
      (by obtain ⟨k, v⟩ := kv; exact hm))

mutual

theorem mergeTwiceVal : ∀ (old : Option Value) (v : Value), v.wf = true →
    mergeOneVal (some (mergeOneVal old v)) v = mergeOneVal old v
  | old, .vnull, _ => by
    rcases old with _ | w
    · rfl
    · cases w <;> rfl
  | old, .vbool _, _ => by
    rcases old with _ | w
    · rfl
    · cases w <;> rfl
  | old, .vstr _, _ => by
    rcases old with _ | w
    · rfl
    · cases w <;> rfl
  | old, .vint _, _ => by
    rcases old with _ | w
    · rfl
    · cases w <;> rfl
  | old, .varr _, _ => by
    rcases old with _ | w
    · rfl
    · cases w <;> rfl
  | old, .vobj sv, hv => by
    rcases old with _ | w
    · rw [show mergeOneVal none (.vobj sv) = .vobj sv from rfl,
          mergeOneVal, mergeSelf hv]
    · cases w with
      | vobj tv => rw [mergeOneVal, mergeOneVal, mergeTwiceKV sv tv hv]
      | vnull =>
        rw [show mergeOneVal (some .vnull) (.vobj sv) = .vobj sv from rfl,
            mergeOneVal, mergeSelf hv]
      | vbool b =>
        rw [show mergeOneVal (some (.vbool b)) (.vobj sv) = .vobj sv from rfl,
            mergeOneVal, mergeSelf hv]
      | vstr s =>
        rw [show mergeOneVal (some (.vstr s)) (.vobj sv) = .vobj sv from rfl,
            mergeOneVal, mergeSelf hv]
      | vint n =>
        rw [show mergeOneVal (some (.vint n)) (.vobj sv) = .vobj sv from rfl,
            mergeOneVal, mergeSelf hv]
      | varr xs =>
        rw [show mergeOneVal (some (.varr xs)) (.vobj sv) = .vobj sv from rfl,
            mergeOneVal, mergeSelf hv]

theorem mergeTwiceKV : ∀ (s : List (String × Value)) (t : List (String × Value)),
    Value.wf (.vobj s) = true →
    mergeKV (mergeKV t s) s = mergeKV t s
  | [], t, _ => rfl
  | (k, v) :: s, t, hw => by
    have hknotin : ¬ k ∈ keysOf s := by
      have hn := (wf_vobj_iff.mp hw).1
      rw [keysOf_cons, nodupKeys_iff, List.nodup_cons] at hn
      exact hn.1
    have hv : v.wf = true := (wfKVs_cons_iff.mp (wf_vobj_iff.mp hw).2).1
    conv_lhs => rw [mergeKV]
    rw [show mergeKV t ((k, v) :: s) =
          mergeKV (setKV t k (mergeOneVal (lookupKV t k) v)) s from rfl]
    have hlM : lookupKV (mergeKV (setKV t k (mergeOneVal (lookupKV t k) v)) s) k =
        some (mergeOneVal (lookupKV t k) v) := by
      rw [merge_lookup_notin hknotin, lookup_setKV_self]
    rw [hlM]
    rw [mergeTwiceVal (lookupKV t k) v hv]
    rw [setKV_self hlM]
    exact mergeTwiceKV s _ (wf_vobj_tail hw)

end

theorem notMem_keys_of_lookup_none {t : KVs} {k : String}
    (h : lookupKV t k = none) : ¬ k ∈ keysOf t := by
  intro hm
  have := lookup_isSome_of_mem_keys hm
  rw [h] at this
  exact absurd this (by simp)

theorem lookup_none_of_notMem_keys {t : KVs} {k : String}
    (h : ¬ k ∈ keysOf t) : lookupKV t k = none := by
  cases hl : lookupKV t k with
  | none => rfl
  | some v => exact absurd (mem_keys_of_lookup_isSome (by simp [hl])) h

theorem applyUpd_nil (st : KVs) : applyUpdateStored st [] = st := rfl

theorem applyUpd_cons (st : KVs) (k : String) (v : Value) (d : KVs) :
    applyUpdateStored st ((k, v) :: d) = applyUpdateStored (setKV st k v) d := rfl

theorem applyUpd_lookup_notin {d st : KVs} {k : String}
    (h : ¬ k ∈ keysOf d) :
    lookupKV (applyUpdateStored st d) k = lookupKV st k := by
  induction d generalizing st with
  | nil => rfl
  | cons kv d ih =>
    obtain ⟨k', v'⟩ := kv
    rw [keysOf_cons] at h
    simp only [List.mem_cons, not_or] at h
    rw [applyUpd_cons, ih h.2, lookup_setKV_ne _ _ h.1]

theorem applyUpd_lookup_in {d st : KVs} {k : String} {v : Value}
    (hn : nodupKeys (keysOf d) = true) (h : (k, v) ∈ d) :
    lookupKV (applyUpdateStored st d) k = some v := by
  induction d generalizing st with
  | nil => simp at h
  | cons kv d ih =>
    obtain ⟨k', v'⟩ := kv
    rw [keysOf_cons, nodupKeys_iff, List.nodup_cons] at hn
    rw [applyUpd_cons]
    rcases List.mem_cons.mp h with he | hm
    · injection he with he1 he2
      subst he1
      subst he2
      rw [applyUpd_lookup_notin hn.1, lookup_setKV_self]
    · exact ih (nodupKeys_iff.mpr hn.2) hm

theorem applyUpd_keys_sub {d st : KVs} {k : String}
    (h : k ∈ keysOf (applyUpdateStored st d)) :
    k ∈ keysOf st ∨ k ∈ keysOf d := by
  induction d generalizing st with
  | nil => exact Or.inl h
  | cons kv d ih =>
    obtain ⟨k', v'⟩ := kv
    rw [applyUpd_cons] at h
    rcases ih h with h | h
    · by_cases h2 : k' ∈ keysOf st
      · rw [keysOf_setKV_mem _ h2] at h
        exact Or.inl h
      · rw [keysOf_setKV_notMem _ h2] at h
        rcases List.mem_append.mp h with h | h
        · exact Or.inl h
        · simp only [List.mem_singleton] at h
          subst h
          exact Or.inr (by simp [keysOf_cons])
    · exact Or.inr (by simp [keysOf_cons, h])

theorem nodupKeys_applyUpd {d st : KVs}
    (hn : nodupKeys (keysOf st) = true) :
    nodupKeys (keysOf (applyUpdateStored st d)) = true := by
  induction d generalizing st with
  | nil => exact hn
  | cons kv d ih =>
    obtain ⟨k', v'⟩ := kv
    rw [applyUpd_cons]
    exact ih (nodupKeys_setKV k' _ hn)

theorem wf_vobj_applyUpd {d st : KVs}
    (hw : Value.wf (.vobj st) = true) (hd : wfKVs d = true) :
    Value.wf (.vobj (applyUpdateStored st d)) = true := by
  induction d generalizing st with
  | nil => exact hw
  | cons kv d ih =>
    obtain ⟨k', v'⟩ := kv
    rw [wfKVs_cons_iff] at hd
    rw [applyUpd_cons]
    exact ih (wf_vobj_setKV k' hw hd.1) hd.2

theorem mem_diff {a b : KVs} {kv : String × Value}
    (h : kv ∈ diffKV a b) :
    kv ∈ b ∧ (match lookupKV a kv.1 with
              | some w => !(Value.equal w kv.2)
              | none => true) = true := by
  rw [diffKV] at h
  exact List.mem_filter.mp h

theorem lookup_filter_none {b : KVs} {k : String}
    (p : String × Value → Bool) (h : ¬ k ∈ keysOf b) :
    lookupKV (b.filter p) k = none := by
  apply lookup_none_of_notMem_keys
  intro hm
  apply h
  simp only [keysOf, List.mem_map] at hm ⊢
  obtain ⟨kv, hkv, hk⟩ := hm
  exact ⟨kv, (List.mem_filter.mp hkv).1, hk⟩

theorem lookup_filter (p : String × Value → Bool) {b : KVs}
    (hn : nodupKeys (keysOf b) = true) (k : String) :
    lookupKV (b.filter p) k =
      (match lookupKV b k with
       | some v => if p (k, v) then some v else none
       | none => none) := by
  induction b with
  | nil => rfl
  | cons kv b ih =>
    obtain ⟨k', v'⟩ := kv
    rw [keysOf_cons, nodupKeys_iff, List.nodup_cons] at hn
    have ih' := ih (nodupKeys_iff.mpr hn.2)
    by_cases h2 : k' = k
    · subst h2
      rw [show lookupKV ((k', v') :: b) k' = some v' from by simp [lookupKV]]
      cases hp : p (k', v') with
      | true =>
        rw [List.filter_cons, if_pos hp]
        simp [lookupKV, hp]
      | false =>
        rw [List.filter_cons, if_neg (by simp [hp])]
        rw [lookup_filter_none p hn.1]
        simp [hp]
    · rw [show lookupKV ((k', v') :: b) k = lookupKV b k from by
        simp [lookupKV, h2]]
      cases hp : p (k', v') with
      | true =>
        rw [List.filter_cons, if_pos hp]
        rw [show lookupKV ((k', v') :: b.filter p) k = lookupKV (b.filter p) k
          from by simp [lookupKV, h2]]
        exact ih'
      | false =>
        rw [List.filter_cons, if_neg (by simp [hp])]
        exact ih'

theorem lookup_diff {a b : KVs} {k : String}
    (hn : nodupKeys (keysOf b) = true) :
    lookupKV (diffKV a b) k =
      (if differsAt a b k then lookupKV b k else none) := by
  rw [diffKV, lookup_filter _ hn k, differsAt]
  cases hl : lookupKV b k with
  | none => rfl
  | some v =>
    cases hc : (match lookupKV a k with
                | some w => !(Value.equal w v)
                | none => true) with
    | true => simp [hc]
    | false => simp [hc]

theorem merge_lookup_some {s t : KVs} {k : String} {v : Value}
    (hn : nodupKeys (keysOf s) = true) (hl : lookupKV s k = some v) :
    lookupKV (mergeKV t s) k = some (mergeOneVal (lookupKV t k) v) :=
  merge_lookup_in hn (lookup_mem hl)

theorem delKV_id_of_lookup_none : ∀ {t : KVs} {k : String},
    lookupKV t k = none → delKV t k = t := by
  intro t
  induction t with
  | nil => intro k _; rfl
  | cons kv t ih =>
    intro k h
    obtain ⟨k', v'⟩ := kv
    rw [lookupKV] at h
    by_cases h2 : k' = k
    · rw [if_pos h2] at h
      exact absurd h (by simp)
    · rw [if_neg h2] at h
      rw [delKV, if_neg h2, ih h]

theorem scrubObserved_shape {o o' : KVs} (h : scrubObserved o = .ok o') :
    ∃ res, lookupKV o "resources" = some (.vobj res) ∧
      o' = setKV o "resources" (.vobj (scrubResourcesObj res)) := by
  rw [scrubObserved] at h
  cases hl : lookupKV o "resources" with
  | none => rw [hl] at h; exact absurd h (by simp)
  | some rv =>
    rw [hl] at h
    cases rv with
    | vobj res =>
      refine ⟨res, rfl, ?_⟩
      injection h with h
      exact h.symm
    | vnull => exact absurd h (by simp)
    | vbool b => exact absurd h (by simp)
    | vstr s => exact absurd h (by simp)
    | vint n => exact absurd h (by simp)
    | varr xs => exact absurd h (by simp)

theorem scrubLimits_wf {r : KVs} (key : String)
    (hr : Value.wf (.vobj r) = true) :
    Value.wf (.vobj (scrubLimits r key)) = true := by
  rw [scrubLimits]
  cases hl : lookupKV r key with
  | none => exact hr
  | some rv =>
    cases rv with
    | vobj ord =>
      cases hs : (lookupKV ord "limits").isSome with
      | false => simpa [hs] using hr
      | true =>
        simp only [hs, if_true]
        exact wf_vobj_setKV key hr
          (wf_vobj_delKV _ (wf_of_lookup (wf_vobj_iff.mp hr).2 hl))
    | vnull => exact hr
    | vbool b => exact hr
    | vstr s => exact hr
    | vint n => exact hr
    | varr xs => exact hr

theorem wf_scrubResourcesObj {res : KVs}
    (hw : Value.wf (.vobj res) = true) :
    Value.wf (.vobj (scrubResourcesObj res)) = true := by
  rw [scrubResourcesObj]
  exact wf_vobj_delKV _ (scrubLimits_wf "proxy" (scrubLimits_wf "orderer" hw))

theorem scrubLimits_lookup_ne {r : KVs} {key k : String} (h : k ≠ key) :
    lookupKV (scrubLimits r key) k = lookupKV r k := by
  rw [scrubLimits]
  cases hl : lookupKV r key with
  | none => rfl
  | some rv =>
    cases rv with
    | vobj ord =>
      cases hs : (lookupKV ord "limits").isSome with
      | false => simp [hs]
      | true =>
        simp only [hs, if_true]
        exact lookup_setKV_ne _ _ h
    | vnull => rfl
    | vbool b => rfl
    | vstr s => rfl
    | vint n => rfl
    | varr xs => rfl

theorem mergeOneVal_not_obj {v : Value} (old : Option Value)
    (hv : ∀ sv, v ≠ Value.vobj sv) : mergeOneVal old v = v := by
  rcases old with _ | w
  · cases v <;> rfl
  · cases w <;> cases v <;> first | rfl | exact absurd rfl (hv _)

theorem limitsClean_scrubLimits (r : KVs) (key : String) :
    limitsClean (scrubLimits r key) key = true := by
  cases hl : lookupKV r key with
  | none =>
    have he : scrubLimits r key = r := by rw [scrubLimits, hl]
    rw [he, limitsClean, hl]
  | some rv =>
    cases rv with
    | vobj ord =>
      cases hs : (lookupKV ord "limits").isSome with
      | false =>
        have he : scrubLimits r key = r := by
          rw [scrubLimits, hl]
          simp [hs]
        rw [he, limitsClean, hl]
        simpa using hs
      | true =>
        have he : scrubLimits r key = setKV r key (.vobj (delKV ord "limits")) := by
          rw [scrubLimits, hl]
          simp [hs]
        rw [he, limitsClean, lookup_setKV_self]
        simp [lookup_delKV_self]
    | vnull =>
      have he : scrubLimits r key = r := by rw [scrubLimits, hl]
      rw [he, limitsClean, hl]
    | vbool b =>
      have he : scrubLimits r key = r := by rw [scrubLimits, hl]
      rw [he, limitsClean, hl]
    | vstr s =>
      have he : scrubLimits r key = r := by rw [scrubLimits, hl]
      rw [he, limitsClean, hl]
    | vint n =>
      have he : scrubLimits r key = r := by rw [scrubLimits, hl]
      rw [he, limitsClean, hl]
    | varr xs =>
      have he : scrubLimits r key = r := by rw [scrubLimits, hl]
      rw [he, limitsClean, hl]

theorem limitsClean_lookup_eq {r r' : KVs} (key : String)
    (h : lookupKV r' key = lookupKV r key) (hc : limitsClean r key = true) :
    limitsClean r' key = true := by
  rw [limitsClean] at hc ⊢
  rw [h]
  exact hc

theorem limitsClean_delKV (r : KVs) (key k : String) (h : key ≠ k)
    (hc : limitsClean r key = true) : limitsClean (delKV r k) key = true :=
  limitsClean_lookup_eq key (lookup_delKV_ne r h) hc

theorem scrubClean_scrubResourcesObj (res : KVs) :
    scrubClean (scrubResourcesObj res) = true := by
  rw [scrubResourcesObj, scrubClean]
  simp only [Bool.and_eq_true]
  refine ⟨⟨?_, ?_⟩, ?_⟩
  · simp [lookup_delKV_self]
  · apply limitsClean_delKV _ _ _ (by decide)
    apply limitsClean_lookup_eq _ (scrubLimits_lookup_ne (by decide))
    exact limitsClean_scrubLimits res "orderer"
  · apply limitsClean_delKV _ _ _ (by decide)
    exact limitsClean_scrubLimits _ "proxy"

theorem scrubLimits_of_clean {r : KVs} {key : String}
    (h : limitsClean r key = true) : scrubLimits r key = r := by
  rw [limitsClean] at h
  rw [scrubLimits]
  cases hl : lookupKV r key with
  | none => rfl
  | some rv =>
    cases rv with
    | vobj ord =>
      rw [hl] at h
      have : (lookupKV ord "limits").isSome = false := by
        simpa using h
      simp [this]
    | vnull => rfl
    | vbool b => rfl
    | vstr s => rfl
    | vint n => rfl
    | varr xs => rfl

theorem scrubResourcesObj_of_clean {res : KVs}
    (h : scrubClean res = true) : scrubResourcesObj res = res := by
  rw [scrubClean] at h
  simp only [Bool.and_eq_true] at h
  rw [scrubResourcesObj, scrubLimits_of_clean h.1.2, scrubLimits_of_clean h.2,
      delKV_id_of_lookup_none (by
        cases hl : lookupKV res "init" with
        | none => rfl
        | some v => rw [hl] at h; simp at h)]

theorem limitsClean_merge {a r : KVs} {key : String}
    (hn : nodupKeys (keysOf r) = true)
    (ha : limitsClean a key = true) (hr : limitsClean r key = true) :
    limitsClean (mergeKV a r) key = true := by
  cases hl : lookupKV r key with
  | none =>
    exact limitsClean_lookup_eq key
      (merge_lookup_notin (notMem_keys_of_lookup_none hl)) ha
  | some rv =>
    have hm : lookupKV (mergeKV a r) key =
        some (mergeOneVal (lookupKV a key) rv) := merge_lookup_some hn hl
    rw [limitsClean, hm]
    cases rv with
    | vobj rord =>
      rw [limitsClean, hl] at hr
      have hr' : (lookupKV rord "limits").isNone = true := hr
      have hrl : ¬ "limits" ∈ keysOf rord :=
        notMem_keys_of_lookup_none (Option.isNone_iff_eq_none.mp hr')
      cases hal : lookupKV a key with
      | none => exact hr'
      | some av =>
        cases av with
        | vobj aord =>
          have ha' : (lookupKV aord "limits").isNone = true := by
            rw [limitsClean, hal] at ha
            exact ha
          show (lookupKV (mergeKV aord rord) "limits").isNone = true
          rw [merge_lookup_notin hrl]
          exact ha'
        | vnull => exact hr'
        | vbool b => exact hr'
        | vstr s => exact hr'
        | vint n => exact hr'
        | varr xs => exact hr'
    | vnull => rw [mergeOneVal_not_obj _ (by simp)]
    | vbool b => rw [mergeOneVal_not_obj _ (by simp)]
    | vstr s => rw [mergeOneVal_not_obj _ (by simp)]
    | vint n => rw [mergeOneVal_not_obj _ (by simp)]
    | varr xs => rw [mergeOneVal_not_obj _ (by simp)]

theorem scrubClean_merge {a r : KVs}
    (hn : nodupKeys (keysOf r) = true)
    (ha : scrubClean a = true) (hr : scrubClean r = true) :
    scrubClean (mergeKV a r) = true := by
  rw [scrubClean] at ha hr ⊢
  simp only [Bool.and_eq_true] at ha hr ⊢
  have hinitr : ¬ "init" ∈ keysOf r :=
    notMem_keys_of_lookup_none (by
      cases hl : lookupKV r "init" with
      | none => rfl
      | some v => rw [hl] at hr; simp at hr)
  refine ⟨⟨?_, ?_⟩, ?_⟩
  · rw [merge_lookup_notin hinitr]
    exact ha.1.1
  · exact limitsClean_merge hn ha.1.2 hr.1.2
  · exact limitsClean_merge hn ha.2 hr.2

theorem buildOverlay_keys_permitted {f : String → String} {p : OsnParams}
    {k : String} (h : k ∈ keysOf (buildOverlay f p)) :
    k ∈ permittedChanges := by
  rcases hco : p.config_override with _ | co <;>
    rcases hres : p.resources with _ | res <;>
    rcases hcr : p.crypto with _ | cr <;>
    rcases hv : p.version with _ | v <;>
    simp only [buildOverlay, hco, hres, hcr, hv, keysOf, List.map_append,
               List.mem_append, List.map_cons, List.map_nil, List.mem_cons,
               List.not_mem_nil, permittedChanges] at h ⊢ <;>
    tauto

theorem nodupKeys_buildOverlay (f : String → String) (p : OsnParams) :
    nodupKeys (keysOf (buildOverlay f p)) = true := by
  rcases hco : p.config_override with _ | co <;>
    rcases hres : p.resources with _ | res <;>
    rcases hcr : p.crypto with _ | cr <;>
    rcases hv : p.version with _ | v <;>
    simp [buildOverlay, hco, hres, hcr, hv, keysOf, nodupKeys]

theorem wfKVs_append (a b : KVs) : wfKVs (a ++ b) = (wfKVs a && wfKVs b) := by
  induction a with
  | nil => simp [wfKVs]
  | cons kv a ih =>
    obtain ⟨k, v⟩ := kv
    simp [wfKVs, ih, Bool.and_assoc]

theorem wfKVs_buildOverlay {f : String → String} {p : OsnParams}
    (hw : paramsWf p = true) : wfKVs (buildOverlay f p) = true := by
  rw [paramsWf] at hw
  simp only [Bool.and_eq_true] at hw
  rw [buildOverlay, wfKVs_append, wfKVs_append, wfKVs_append]
  simp only [Bool.and_eq_true]
  refine ⟨⟨⟨?_, ?_⟩, ?_⟩, ?_⟩
  · cases hco : p.config_override with
    | none => rfl
    | some co =>
      have h1 := hw.1.1
      rw [hco] at h1
      simpa [wfKVs] using h1
  · cases hres : p.resources with
    | none => rfl
    | some res =>
      have h1 := hw.1.2
      rw [hres] at h1
      simpa [wfKVs] using h1
  · cases hcr : p.crypto with
    | none => rfl
    | some cr =>
      have h1 := hw.2
      rw [hcr] at h1
      simpa [wfKVs] using h1
  · cases hv : p.version with
    | none => rfl
    | some v => simp [wfKVs, Value.wf]

theorem lookup_overlay_co (f : String → String) (p : OsnParams) :
    lookupKV (buildOverlay f p) "config_override" =
      Option.map (fun v => Value.vobj v) p.config_override := by
  rcases hco : p.config_override with _ | co <;>
    rcases hres : p.resources with _ | res <;>
    rcases hcr : p.crypto with _ | cr <;>
    rcases hv : p.version with _ | v <;>
    simp [buildOverlay, hco, hres, hcr, hv, lookupKV]

theorem lookup_overlay_res (f : String → String) (p : OsnParams) :
    lookupKV (buildOverlay f p) "resources" =
      Option.map (fun v => Value.vobj v) p.resources := by
  rcases hco : p.config_override with _ | co <;>
    rcases hres : p.resources with _ | res <;>
    rcases hcr : p.crypto with _ | cr <;>
    rcases hv : p.version with _ | v <;>
    simp [buildOverlay, hco, hres, hcr, hv, lookupKV]

theorem lookup_overlay_crypto (f : String → String) (p : OsnParams) :
    lookupKV (buildOverlay f p) "crypto" =
      Option.map (fun v => Value.vobj v) p.crypto := by
  rcases hco : p.config_override with _ | co <;>
    rcases hres : p.resources with _ | res <;>
    rcases hcr : p.crypto with _ | cr <;>
    rcases hv : p.version with _ | v <;>
    simp [buildOverlay, hco, hres, hcr, hv, lookupKV]

theorem lookup_overlay_version (f : String → String) (p : OsnParams) :
    lookupKV (buildOverlay f p) "version" =
      Option.map (fun v => Value.vstr (f v)) p.version := by
  rcases hco : p.config_override with _ | co <;>
    rcases hres : p.resources with _ | res <;>
    rcases hcr : p.crypto with _ | cr <;>
    rcases hv : p.version with _ | v <;>
    simp [buildOverlay, hco, hres, hcr, hv, lookupKV]

theorem overlay_keys_cases {f : String → String} {p : OsnParams}
    {k : String} (h : k ∈ keysOf (buildOverlay f p)) :
    k = "config_override" ∨ k = "resources" ∨ k = "crypto" ∨ k = "version" := by
  have := buildOverlay_keys_permitted h
  simp only [permittedChanges, List.mem_cons, List.not_mem_nil, or_false] at this
  tauto

theorem findIllegal_none_of_forall {d : KVs}
    (h : ∀ kv ∈ d, kv.1 ∈ permittedChanges) : findIllegal d = none := by
  rw [findIllegal, Option.map_eq_none']
  rw [List.find?_eq_none]
  intro kv hkv
  simp only [Bool.not_eq_true', Bool.not_eq_false]
  simp
  exact h kv hkv

theorem update_diff_keys_permitted {o' : KVs} {f : String → String}
    {p : OsnParams} (hw : Value.wf (.vobj o') = true) {kv : String × Value}
    (hkv : kv ∈ diffKV o' (mergeKV (copyKVs o') (buildOverlay f p))) :
    kv.1 ∈ permittedChanges := by
  rw [copyKVs_id] at hkv
  obtain ⟨k, v⟩ := kv
  obtain ⟨hmem, hcond⟩ := mem_diff hkv
  by_cases hov : k ∈ keysOf (buildOverlay f p)
  · exact buildOverlay_keys_permitted hov
  · exfalso
    have hnodup : nodupKeys (keysOf (mergeKV o' (buildOverlay f p))) = true :=
      nodupKeys_merge _ (wf_vobj_iff.mp hw).1
    have hlv : lookupKV (mergeKV o' (buildOverlay f p)) k = some v :=
      lookup_of_mem_nodup hnodup hmem
    rw [merge_lookup_notin hov] at hlv
    have hcond' : !(Value.equal v v) = true := by simpa [hlv] using hcond
    rw [equal_refl v (wf_of_lookup (wf_vobj_iff.mp hw).2 hlv)] at hcond'
    simp at hcond'

theorem update_findIllegal_none {o' : KVs} {f : String → String}
    {p : OsnParams} (hw : Value.wf (.vobj o') = true) :
    findIllegal (diffKV o' (mergeKV (copyKVs o') (buildOverlay f p))) = none :=
  findIllegal_none_of_forall (fun _ hkv => update_diff_keys_permitted hw hkv)

theorem scrubObserved_error {o : KVs} {e : RErr}
    (h : scrubObserved o = .error e) :
    e = .typeError "resources" ∨ e = .pyKeyError "resources" := by
  rw [scrubObserved] at h
  cases hl : lookupKV o "resources" with
  | none =>
    rw [hl] at h
    injection h with h
    exact Or.inr h.symm
  | some rv =>
    rw [hl] at h
    cases rv with
    | vobj res => exact absurd h (by simp)
    | vnull => injection h with h; exact Or.inl h.symm
    | vbool b => injection h with h; exact Or.inl h.symm
    | vstr s => injection h with h; exact Or.inl h.symm
    | vint n => injection h with h; exact Or.inl h.symm
    | varr xs => injection h with h; exact Or.inl h.symm

theorem reconcile_update_dispatch {c : Console} {p : OsnParams} {o : KVs}
    (hp : p.state = "present") (hnode : c.node = some o)
    (hclean : (lookupKV o "deployment_attrs_missing").isNone = true) :
    reconcile c p = runUpdateBranch c p o := by
  rw [reconcile, hnode]
  rw [if_neg (by rw [hp]; decide)]
  rw [if_neg (by simp [Option.isNone_iff_eq_none.mp hclean])]

theorem wf_scrubObserved {o o' : KVs} (hw : Value.wf (.vobj o) = true)
    (h : scrubObserved o = .ok o') : Value.wf (.vobj o') = true := by
  obtain ⟨res, hl, he⟩ := scrubObserved_shape h
  subst he
  exact wf_vobj_setKV _ hw
    (wf_scrubResourcesObj (wf_of_lookup (wf_vobj_iff.mp hw).2 hl))

theorem finishRun_not_illegal {c : Console} {var st : KVs}
    {acts : List RAction} {ch : Bool} {f : String} {ov nv : Option Value} :
    finishRun c var st acts ch ≠ .error (.illegalChange f ov nv) := by
  intro h
  rw [finishRun] at h
  cases hl : lookupKV var "consenter_proposal_fin" with
  | none => rw [hl] at h; simp at h
  | some v => rw [hl] at h; simp at h

theorem mkPayload_error {p : OsnParams} {d nw : KVs} {e : RErr}
    (h : mkPayload p d nw = .error e) : e = .pyKeyError "resources" := by
  rw [mkPayload] at h
  cases hres : p.resources with
  | none => rw [hres] at h; simp at h
  | some r =>
    rw [hres] at h
    cases hl : lookupKV nw "resources" with
    | none =>
      rw [hl] at h
      injection h with h
      exact h.symm
    | some rv => rw [hl] at h; simp at h

theorem strList_error : ∀ {xs : List Value} {e : RErr},
    strList xs = .error e → ∃ s, e = .typeError s := by
  intro xs
  induction xs with
  | nil => intro e h; simp [strList] at h
  | cons x xs ih =>
    intro e h
    cases x with
    | vstr s =>
      rw [strList] at h
      cases hs : strList xs with
      | error e' =>
        rw [hs] at h
        simp only [Except.map] at h
        injection h with h
        exact h ▸ ih hs
      | ok l => rw [hs] at h; simp [Except.map] at h
    | vnull => exact ⟨_, (Except.error.inj h).symm⟩
    | vbool b => exact ⟨_, (Except.error.inj h).symm⟩
    | vint n => exact ⟨_, (Except.error.inj h).symm⟩
    | varr ys => exact ⟨_, (Except.error.inj h).symm⟩
    | vobj fs => exact ⟨_, (Except.error.inj h).symm⟩

theorem asStringList_error {v : Value} {e : RErr}
    (h : asStringList v = .error e) : ∃ s, e = .typeError s := by
  cases v with
  | varr xs => exact strList_error h
  | vnull => exact ⟨_, (Except.error.inj h).symm⟩
  | vbool b => exact ⟨_, (Except.error.inj h).symm⟩
  | vstr s => exact ⟨_, (Except.error.inj h).symm⟩
  | vint n => exact ⟨_, (Except.error.inj h).symm⟩
  | vobj fs => exact ⟨_, (Except.error.inj h).symm⟩

theorem applyAdminEdit_error {st : KVs} {app rem : List String} {e : RErr}
    (h : applyAdminEdit st app rem = .error e) : ∃ s, e = .typeError s := by
  rw [applyAdminEdit] at h
  split at h
  · rename_i av hl
    simp only [bind, Except.bind] at h
    split at h
    · rename_i e' hae
      injection h with h
      exact h ▸ asStringList_error hae
    · simp at h
  · simp at h

theorem adminStep_error {p : OsnParams} {var st : KVs} {e : RErr}
    (h : adminStep p var st = .error e) : ∃ s, e = .typeError s := by
  rw [adminStep] at h
  split at h
  · simp at h
  · split at h
    · simp at h
    · rename_i av hl
      simp only [bind, Except.bind] at h
      split at h
      · rename_i e' hae
        injection h with h
        exact h ▸ asStringList_error hae
      · split at h
        · simp at h
        · split at h
          · rename_i e' hae2
            injection h with h
            exact h ▸ applyAdminEdit_error hae2
          · simp at h

theorem getCrypto_not_illegal {c : Console} {p : OsnParams}
    {f : String} {ov nv : Option Value} :
    getCrypto c p ≠ .error (.illegalChange f ov nv) := by
  intro h
  rw [getCrypto] at h
  split at h
  · simp at h
  · split at h
    · simp at h
    · simp at h

theorem createBranch_not_illegal {c : Console} {p : OsnParams}
    {f : String} {ov nv : Option Value} :
    runCreateBranch c p ≠ .error (.illegalChange f ov nv) := by
  intro h
  rw [runCreateBranch] at h
  repeat' split at h
  any_goals simp_all
  any_goals exact finishRun_not_illegal h
  all_goals exact getCrypto_not_illegal (by assumption)

theorem updateBranch_not_illegal {c : Console} {p : OsnParams} {o : KVs}
    (hw : Value.wf (.vobj o) = true) {f : String} {ov nv : Option Value} :
    runUpdateBranch c p o ≠ .error (.illegalChange f ov nv) := by
  intro h
  rw [runUpdateBranch] at h
  split at h
  · rename_i e hs
    injection h with h
    rcases scrubObserved_error hs with he | he <;> rw [he] at h <;> simp at h
  · rename_i o' hs
    rw [runUpdateBody] at h
    dsimp only at h
    split at h
    · rename_i fi hfi
      rw [update_findIllegal_none (wf_scrubObserved hw hs)] at hfi
      simp at hfi
    · split at h
      · rename_i e hp
        injection h with h
        rw [mkPayload_error hp] at h
        simp at h
      · split at h
        · rename_i e ha
          injection h with h
          obtain ⟨s, hse⟩ := adminStep_error ha
          rw [hse] at h
          simp at h
        · split at h
          · simp at h
          · split at h
            · exact finishRun_not_illegal h
            · exact finishRun_not_illegal h

theorem finishRun_ok {c : Console} {var st : KVs} {acts : List RAction}
    {ch : Bool} {r : RunResult} (h : finishRun c var st acts ch = .ok r) :
    r.console = ⟨some st, c.clusterInfo, c.ca, c.resolveOSN, c.resolvePeer⟩ ∧
    r.changed = ch ∧ r.output = some (projectNode var) ∧
    ∃ finV, lookupKV var "consenter_proposal_fin" = some finV ∧
      r.actions = (if isTruthy finV then acts ++ [RAction.waitReady] else acts) := by
  rw [finishRun] at h
  split at h
  · simp at h
  · rename_i finV hfin
    injection h with h
    subst h
    refine ⟨rfl, rfl, rfl, finV, hfin, ?_⟩
    cases ht : isTruthy finV <;> simp [ht]

theorem hasUpdateNode_append (a b : List RAction) :
    hasUpdateNode (a ++ b) = (hasUpdateNode a || hasUpdateNode b) := by
  induction a with
  | nil => simp [hasUpdateNode]
  | cons x a ih => cases x <;> simp [hasUpdateNode, ih]

theorem hasUpdateNode_overlayActions (p : OsnParams) :
    hasUpdateNode (overlayActions p) = false := by
  rcases hv : p.version with _ | v <;> simp [overlayActions, hv, hasUpdateNode]

theorem adminStep_ok_acts {p : OsnParams} {var st st2 : KVs}
    {acts : List RAction} (h : adminStep p var st = .ok (st2, acts)) :
    acts = [] ∨ ∃ a b, acts = [RAction.editAdminCerts a b] := by
  rw [adminStep] at h
  split at h
  · injection h with h
    exact Or.inl (congrArg Prod.snd h).symm
  · split at h
    · injection h with h
      exact Or.inl (congrArg Prod.snd h).symm
    · rename_i av hl
      simp only [bind, Except.bind] at h
      split at h
      · simp at h
      · split at h
        · injection h with h
          exact Or.inl (congrArg Prod.snd h).symm
        · split at h
          · simp at h
          · rename_i st' hae
            injection h with h
            exact Or.inr ⟨_, _, (congrArg Prod.snd h).symm⟩

theorem hasUpdateNode_adminStep {p : OsnParams} {var st st2 : KVs}
    {acts : List RAction} (h : adminStep p var st = .ok (st2, acts)) :
    hasUpdateNode acts = false := by
  rcases adminStep_ok_acts h with he | ⟨a, b, he⟩ <;>
    simp [he, hasUpdateNode]

theorem updatePayloads_append (a b : List RAction) :
    updatePayloads (a ++ b) = updatePayloads a ++ updatePayloads b := by
  induction a with
  | nil => simp [updatePayloads]
  | cons x a ih => cases x <;> simp [updatePayloads, ih]

theorem updatePayloads_overlayActions (p : OsnParams) :
    updatePayloads (overlayActions p) = [] := by
  rcases hv : p.version with _ | v <;> simp [overlayActions, hv, updatePayloads]

theorem updatePayloads_adminStep {p : OsnParams} {var st st2 : KVs}
    {acts : List RAction} (h : adminStep p var st = .ok (st2, acts)) :
    updatePayloads acts = [] := by
  rcases adminStep_ok_acts h with he | ⟨a, b, he⟩ <;>
    simp [he, updatePayloads]

theorem mkPayload_lookup {p : OsnParams} {d0 nw d : KVs}
    (h : mkPayload p d0 nw = .ok d) (k : String) :
    lookupKV d k =
      if p.resources.isSome && (k == "resources") then lookupKV nw k
      else lookupKV d0 k := by
  rw [mkPayload] at h
  cases hres : p.resources with
  | none =>
    rw [hres] at h
    injection h with h
    subst h
    simp
  | some rs =>
    rw [hres] at h
    cases hl : lookupKV nw "resources" with
    | none => rw [hl] at h; simp at h
    | some rv =>
      rw [hl] at h
      injection h with h
      subst h
      by_cases hk : k = "resources"
      · subst hk
        simp [lookup_setKV_self, hl]
      · rw [lookup_setKV_ne _ _ hk]
        simp [hk]

theorem adminEdits_append (a b : List RAction) :
    adminEdits (a ++ b) = adminEdits a ++ adminEdits b := by
  induction a with
  | nil => simp [adminEdits]
  | cons x a ih => cases x <;> simp [adminEdits, ih]

theorem adminEdits_overlayActions (p : OsnParams) :
    adminEdits (overlayActions p) = [] := by
  rcases hv : p.version with _ | v <;> simp [overlayActions, hv, adminEdits]

theorem lookup_append_none {a : KVs} (b : KVs) {k : String}
    (h : lookupKV a k = none) : lookupKV (a ++ b) k = lookupKV b k := by
  induction a with
  | nil => rfl
  | cons kv a ih =>
    obtain ⟨k', v'⟩ := kv
    rw [lookupKV] at h
    by_cases h2 : k' = k
    · rw [if_pos h2] at h
      simp at h
    · rw [if_neg h2] at h
      rw [List.cons_append, lookupKV, if_neg h2]
      exact ih h

theorem unwrapKey_lookup_none {e : KVs} {k : String} (kw : String)
    (h : lookupKV e k = none) : lookupKV (unwrapKey e kw) k = none := by
  rw [unwrapKey]
  split
  · rename_i v hl
    have hne : k ≠ kw := by
      intro he
      subst he
      rw [h] at hl
      simp at hl
    rw [lookup_setKV_ne _ _ hne]
    exact h
  · exact h

theorem lookup_createdNode_admin (p : OsnParams) (e : KVs)
    (he : lookupKV e "admin_certs" = none) :
    lookupKV (createdNodeFromSpec p e) "admin_certs" =
      some (.varr ((p.admins.getD []).map .vstr)) := by
  rw [createdNodeFromSpec,
    lookup_append_none _
      (unwrapKey_lookup_none _ (unwrapKey_lookup_none _
        (unwrapKey_lookup_none _ he)))]
  simp [lookupKV]

theorem mkPayload_keys {p : OsnParams} {d0 nw d : KVs}
    (h : mkPayload p d0 nw = .ok d) {k : String}
    (hk : ¬ k ∈ keysOf d0) (hkr : k ≠ "resources") : ¬ k ∈ keysOf d := by
  rw [mkPayload] at h
  split at h
  · split at h
    · rename_i rv hl
      injection h with h
      subst h
      intro hm
      by_cases hr : "resources" ∈ keysOf d0
      · rw [keysOf_setKV_mem _ hr] at hm
        exact hk hm
      · rw [keysOf_setKV_notMem _ hr] at hm
        rcases List.mem_append.mp hm with hm | hm
        · exact hk hm
        · simp only [List.mem_singleton] at hm
          exact hkr hm
    · simp at h
  · injection h with h
    subst h
    exact hk

theorem adminStep_edits {p : OsnParams} {var st st2 : KVs}
    {acts : List RAction} {av : Value} {actual : List String}
    (hex : (getExpectedAdmins p).isEmpty = false)
    (hav : lookupKV var "admin_certs" = some av)
    (hstr : asStringList av = .ok actual)
    (h : adminStep p var st = .ok (st2, acts)) :
    adminEdits acts =
      (let eset := dedupFirst ((getExpectedAdmins p).map normalize_whitespace)
       let aset := dedupFirst (actual.map normalize_whitespace)
       let app := eset.filter (fun x => !(aset.contains x))
       let rem := aset.filter (fun x => !(eset.contains x))
       if app.isEmpty && rem.isEmpty then [] else [(app, rem)]) := by
  rw [adminStep] at h
  dsimp only at h
  rw [hex] at h
  simp only [Bool.false_eq_true, if_false] at h
  rw [hav] at h
  simp only [bind, Except.bind] at h
  rw [hstr] at h
  dsimp only at h
  dsimp only
  split at h
  · rename_i hc
    injection h with h
    injection h with h1 h2
    rw [← h2, if_pos hc]
    rfl
  · rename_i hc
    split at h
    · simp at h
    · rename_i st' hae
      injection h with h
      injection h with h1 h2
      rw [← h2, if_neg hc]
      rfl

theorem reconcile_create_dispatch {c : Console} {p : OsnParams}
    (hp : p.state = "present") (hnode : c.node = none) :
    reconcile c p = runCreateBranch c p := by
  rw [reconcile, hnode, hp]
  rfl

theorem lookup_addHsmSpec {p : OsnParams} {e : KVs} {k : String}
    (h1 : k ≠ "hsm") (h2 : k ≠ "config_override") :
    lookupKV (addHsmSpec p e) k = lookupKV e k := by
  rw [addHsmSpec]
  split
  · rename_i hh
    dsimp only
    split
    · rename_i co hl
      rw [lookup_setKV_ne _ _ h2]
      split
      · split
        · rfl
        · rw [lookup_setKV_ne _ _ h1]
      · rfl
    · split
      · split
        · rfl
        · rw [lookup_setKV_ne _ _ h1]
      · rfl
  · rfl

theorem lookup_addZoneSpec {p : OsnParams} {e : KVs} {k : String}
    (h : k ≠ "zone") : lookupKV (addZoneSpec p e) k = lookupKV e k := by
  rw [addZoneSpec]
  split
  · rw [lookup_setKV_ne _ _ h]
  · rfl

theorem lookup_addVersionSpec (c : Console) {p : OsnParams} {e : KVs}
    {k : String} (h : k ≠ "version") :
    lookupKV (addVersionSpec c p e).1 k = lookupKV e k := by
  rw [addVersionSpec]
  split
  · rw [lookup_setKV_ne _ _ h]
  · rfl

theorem lookup_wrapBatchSpec {p : OsnParams} {e : KVs} {k : String}
    (h1 : k ≠ "config_override") (h2 : k ≠ "zone") :
    lookupKV (wrapBatchSpec p e) k = lookupKV e k := by
  rw [wrapBatchSpec]
  split
  · rw [lookup_setKV_ne _ _ h2, lookup_setKV_ne _ _ h1]
  · rw [lookup_setKV_ne _ _ h1]

theorem adminEdits_addVersionSpec (c : Console) (p : OsnParams) (e : KVs) :
    adminEdits (addVersionSpec c p e).2 = [] := by
  rcases hv : p.version with _ | v <;> simp [addVersionSpec, hv, adminEdits]

theorem createBranch_ok_shape {c : Console} {p : OsnParams} {r : RunResult}
    (h : runCreateBranch c p = .ok r) :
    adminEdits r.actions = [] ∧
    ∃ st, r.console.node = some st ∧
      lookupKV st "admin_certs" =
        some (.varr ((p.admins.getD []).map .vstr)) := by
  rw [runCreateBranch] at h
  split at h
  · simp at h
  · split at h
    · simp at h
    · rename_i cluster_id cluster_name heqc
      split at h
      · simp at h
      · rename_i mspId heqm
        split at h
        · simp at h
        · split at h
          · simp at h
          · split at h
            · simp at h
            · dsimp only at h
              split at h
              · simp at h
              · rename_i crypto hcr
                obtain ⟨hcons, hch, hout, finV, hfin, hacts⟩ := finishRun_ok h
                have h1 : lookupKV (addVersionSpec c p
                    (addZoneSpec p (addHsmSpec p
                      (createSpecBase cluster_id cluster_name mspId p)))).1
                    "admin_certs" = none := by
                  rw [lookup_addVersionSpec c (by decide),
                      lookup_addZoneSpec (by decide),
                      lookup_addHsmSpec (by decide) (by decide)]
                  rfl
                have h2 := adminEdits_addVersionSpec c p
                  (addZoneSpec p (addHsmSpec p
                    (createSpecBase cluster_id cluster_name mspId p)))
                have he : lookupKV (setKV (wrapBatchSpec p
                    (addVersionSpec c p (addZoneSpec p (addHsmSpec p
                      (createSpecBase cluster_id cluster_name mspId p)))).1)
                    "crypto" (.varr [.vobj crypto])) "admin_certs" = none := by
                  rw [lookup_setKV_ne _ _ (by decide),
                      lookup_wrapBatchSpec (by decide) (by decide)]
                  exact h1
                refine ⟨?_, _, by rw [hcons], lookup_createdNode_admin p _ he⟩
                rw [hacts]
                cases isTruthy finV <;>
                  simp [adminEdits_append, adminEdits, h2]

theorem mem_dedupFirst : ∀ {l : List String} {x : String},
    x ∈ dedupFirst l ↔ x ∈ l := by
  intro l
  induction l with
  | nil => intro x; rfl
  | cons y l ih =>
    intro x
    rw [dedupFirst]
    simp only [List.mem_cons, List.mem_filter, bne_iff_ne]
    constructor
    · rintro (he | ⟨hm, -⟩)
      · exact Or.inl he
      · exact Or.inr (ih.mp hm)
    · rintro (he | hm)
      · exact Or.inl he
      · by_cases he : x = y
        · exact Or.inl he
        · exact Or.inr ⟨ih.mpr hm, he⟩

theorem norm_idem (s : String) :
    normalize_whitespace (normalize_whitespace s) = normalize_whitespace s := by
  simp only [normalize_whitespace]
  simp [List.filter_filter]

theorem mem_norm_self {l : List String} {x : String}
    (h : x ∈ dedupFirst (l.map normalize_whitespace)) :
    normalize_whitespace x = x := by
  rw [mem_dedupFirst] at h
  obtain ⟨s, -, hs⟩ := List.mem_map.mp h
  rw [← hs, norm_idem]

theorem strList_map_vstr : ∀ (l : List String),
    strList (l.map Value.vstr) = .ok l
  | [] => rfl
  | s :: l => by
    rw [List.map_cons, strList, strList_map_vstr l]
    rfl

theorem wf_varr_vstr (l : List String) :
    Value.wf (.varr (l.map Value.vstr)) = true := by
  rw [Value.wf]
  induction l with
  | nil => rfl
  | cons s l ih => rw [List.map_cons, wfList, Value.wf, Bool.true_and]; exact ih

theorem mem_keys_setKV_self (t : KVs) (k : String) (v : Value) :
    k ∈ keysOf (setKV t k v) := by
  by_cases h : k ∈ keysOf t
  · rw [keysOf_setKV_mem v h]
    exact h
  · rw [keysOf_setKV_notMem v h]
    simp

theorem nodupKeys_filter {b : KVs} (q : String × Value → Bool)
    (h : nodupKeys (keysOf b) = true) :
    nodupKeys (keysOf (b.filter q)) = true := by
  rw [nodupKeys_iff] at h ⊢
  exact h.sublist (List.Sublist.map Prod.fst (List.filter_sublist b))

theorem wfKVs_filter {b : KVs} (q : String × Value → Bool)
    (h : wfKVs b = true) : wfKVs (b.filter q) = true := by
  induction b with
  | nil => rfl
  | cons kv b ih =>
    obtain ⟨k, v⟩ := kv
    rw [wfKVs_cons_iff] at h
    rw [List.filter_cons]
    split
    · rw [wfKVs_cons_iff]
      exact ⟨h.1, ih h.2⟩
    · exact ih h.2

theorem applyAdminEdit_ok {st : KVs} {app rem : List String} {st' : KVs}
    (h : applyAdminEdit st app rem = .ok st') :
    ∃ L : List String, st' = setKV st "admin_certs" (.varr (L.map Value.vstr)) := by
  rw [applyAdminEdit] at h
  split at h
  · rename_i av hl
    simp only [bind, Except.bind] at h
    split at h
    · simp at h
    · rename_i cur hcur
      injection h with h
      exact ⟨_, h.symm⟩
  · injection h with h
    exact ⟨_, h.symm⟩

theorem adminStep_ok_state {p : OsnParams} {var st st2 : KVs}
    {acts : List RAction} (h : adminStep p var st = .ok (st2, acts)) :
    st2 = st ∨ ∃ L : List String, st2 = setKV st "admin_certs" (.varr (L.map Value.vstr)) := by
  rw [adminStep] at h
  split at h
  · injection h with h
    injection h with h1 h2
    exact Or.inl h1.symm
  · split at h
    · injection h with h
      injection h with h1 h2
      exact Or.inl h1.symm
    · rename_i av hl
      simp only [bind, Except.bind] at h
      split at h
      · simp at h
      · split at h
        · injection h with h
          injection h with h1 h2
          exact Or.inl h1.symm
        · split at h
          · simp at h
          · rename_i st' hae
            injection h with h
            injection h with h1 h2
            exact h1 ▸ Or.inr (applyAdminEdit_ok hae)

theorem lookup_adminStep_ne {p : OsnParams} {var st st2 : KVs}
    {acts : List RAction} (h : adminStep p var st = .ok (st2, acts))
    {k : String} (hk : k ≠ "admin_certs") :
    lookupKV st2 k = lookupKV st k := by
  rcases adminStep_ok_state h with he | ⟨L, he⟩
  · rw [he]
  · rw [he, lookup_setKV_ne _ _ hk]

theorem projectNode_setKV {n : KVs} {k : String} (v : Value)
    (h : ¬ k ∈ projTable.map Prod.snd) :
    projectNode (setKV n k v) = projectNode n := by
  rw [projectNode, projectNode]
  apply List.filterMap_congr
  intro kv hkv
  rw [lookup_setKV_ne _ _ (fun he => h (List.mem_map.mpr ⟨kv, hkv, he⟩))]

theorem contains_iff {l : List String} {x : String} :
    l.contains x = true ↔ x ∈ l :=
  List.elem_iff

theorem edit_symdiff_closed {eset aset app rem newL aset2 : List String}
    {ex actual : List String}
    (heset : eset = dedupFirst (ex.map normalize_whitespace))
    (haset : aset = dedupFirst (actual.map normalize_whitespace))
    (happ : app = eset.filter (fun y => !(aset.contains y)))
    (hrem : rem = aset.filter (fun y => !(eset.contains y)))
    (hnew : newL =
      actual.filter (fun s => !(rem.contains (normalize_whitespace s))) ++ app)
    (haset2 : aset2 = dedupFirst (newL.map normalize_whitespace)) :
    eset.filter (fun y => !(aset2.contains y)) = [] ∧
    aset2.filter (fun y => !(eset.contains y)) = [] := by
  constructor
  · rw [List.filter_eq_nil_iff]
    intro x hx
    have hxnorm : normalize_whitespace x = x := mem_norm_self (heset ▸ hx)
    suffices hc : x ∈ aset2 by simp [hc]
    rw [haset2, mem_dedupFirst]
    by_cases hxa : x ∈ aset
    · obtain ⟨s, hs, hsx⟩ := List.mem_map.mp (mem_dedupFirst.mp (haset ▸ hxa))
      have hxrem : ¬ x ∈ rem := by
        rw [hrem]
        intro hmem
        have hbad := (List.mem_filter.mp hmem).2
        rw [contains_iff.mpr hx] at hbad
        simp at hbad
      refine List.mem_map.mpr ⟨s, ?_, hsx⟩
      rw [hnew]
      apply List.mem_append_left
      rw [List.mem_filter]
      refine ⟨hs, ?_⟩
      rw [hsx]
      simp only [Bool.not_eq_true']
      cases hcc : rem.contains x with
      | false => rfl
      | true => exact absurd (contains_iff.mp hcc) hxrem
    · have hxapp : x ∈ app := by
        rw [happ, List.mem_filter]
        refine ⟨hx, ?_⟩
        simp only [Bool.not_eq_true']
        cases hcc : aset.contains x with
        | false => rfl
        | true => exact absurd (contains_iff.mp hcc) hxa
      refine List.mem_map.mpr ⟨x, ?_, hxnorm⟩
      rw [hnew]
      exact List.mem_append_right _ hxapp
  · rw [List.filter_eq_nil_iff]
    intro x hx
    suffices hc : x ∈ eset by simp [hc]
    obtain ⟨s, hsnew, hsx⟩ :=
      List.mem_map.mp (mem_dedupFirst.mp (haset2 ▸ hx))
    rw [hnew] at hsnew
    rcases List.mem_append.mp hsnew with hskept | hsapp
    · obtain ⟨hsact, hsfil⟩ := List.mem_filter.mp hskept
      have hxaset : x ∈ aset := by
        rw [haset, mem_dedupFirst]
        exact List.mem_map.mpr ⟨s, hsact, hsx⟩
      by_contra hxe
      have hxrem : x ∈ rem := by
        rw [hrem, List.mem_filter]
        refine ⟨hxaset, ?_⟩
        simp only [Bool.not_eq_true']
        cases hcc : eset.contains x with
        | false => rfl
        | true => exact absurd (contains_iff.mp hcc) hxe
      rw [hsx] at hsfil
      rw [contains_iff.mpr hxrem] at hsfil
      simp at hsfil
    · have hse : s ∈ eset := by
        rw [happ] at hsapp
        exact (List.mem_filter.mp hsapp).1
      have hnn : normalize_whitespace s = s := mem_norm_self (heset ▸ hse)
      rw [hnn] at hsx
      exact hsx ▸ hse

theorem adminStep_idem {p : OsnParams} {var st st2 : KVs} {acts : List RAction}
    (h : adminStep p var st = .ok (st2, acts))
    (hsv : lookupKV var "admin_certs" = lookupKV st "admin_certs")
    {var2 stB : KVs}
    (h2 : lookupKV var2 "admin_certs" = lookupKV st2 "admin_certs") :
    adminStep p var2 stB = .ok (stB, []) := by
  rw [adminStep] at h ⊢
  dsimp only at h ⊢
  cases hex : (getExpectedAdmins p).isEmpty with
  | true => simp [hex]
  | false =>
    rw [hex] at h
    simp only [Bool.false_eq_true, if_false] at h ⊢
    split at h
    · rename_i hnone
      injection h with h
      injection h with h1 hacts
      have hl2 : lookupKV var2 "admin_certs" = none := by
        rw [h2, ← h1, ← hsv, hnone]
      rw [hl2]
    · rename_i av hav
      simp only [bind, Except.bind] at h
      split at h
      · simp at h
      · rename_i actual hact
        split at h
        · rename_i hc
          injection h with h
          injection h with h1 hacts
          have hl2 : lookupKV var2 "admin_certs" = some av := by
            rw [h2, ← h1, ← hsv, hav]
          rw [hl2]
          dsimp only
          simp only [bind, Except.bind]
          rw [hact]
          dsimp only
          rw [if_pos hc]
        · rename_i hc
          split at h
          · simp at h
          · rename_i st' hae
            injection h with h
            injection h with h1 hacts
            have hstav : lookupKV st "admin_certs" = some av := hsv.symm.trans hav
            rw [applyAdminEdit, hstav] at hae
            dsimp only at hae
            simp only [bind, Except.bind] at hae
            rw [hact] at hae
            dsimp only at hae
            injection hae with hae
            have hl2 : lookupKV var2 "admin_certs" =
                some (.varr ((((actual.filter (fun s =>
                  !(((dedupFirst (actual.map normalize_whitespace)).filter
                      (fun x => !((dedupFirst ((getExpectedAdmins p).map
                        normalize_whitespace)).contains x))).contains
                    (normalize_whitespace s)))) ++
                  ((dedupFirst ((getExpectedAdmins p).map
                    normalize_whitespace)).filter (fun x =>
                      !((dedupFirst (actual.map
                        normalize_whitespace)).contains x))))).map .vstr)) := by
              rw [h2, ← h1, ← hae, lookup_setKV_self]
            rw [hl2]
            dsimp only
            simp only [bind, Except.bind, asStringList]
            rw [strList_map_vstr]
            dsimp only
            obtain ⟨he1, he2⟩ := edit_symdiff_closed rfl rfl rfl rfl rfl rfl
            rw [if_pos]
            rw [he1, he2]
            rfl

theorem scrubObserved_eq {o : KVs} {res : KVs}
    (h : lookupKV o "resources" = some (.vobj res)) :
    scrubObserved o = .ok (setKV o "resources" (.vobj (scrubResourcesObj res))) := by
  rw [scrubObserved, h]

theorem ovkey_ne {f : String → String} {p : OsnParams} {k : String}
    (h : k ∈ keysOf (buildOverlay f p)) :
    k ≠ "admin_certs" ∧ k ≠ "consenter_proposal_fin" ∧
    k ≠ "deployment_attrs_missing" := by
  rcases overlay_keys_cases h with h | h | h | h <;> subst h <;>
    exact ⟨by decide, by decide, by decide⟩

theorem wf_params_resources {p : OsnParams} {pres : KVs}
    (hpw : paramsWf p = true) (h : p.resources = some pres) :
    Value.wf (.vobj pres) = true := by
  rw [paramsWf] at hpw
  simp only [Bool.and_eq_true] at hpw
  have := hpw.1.2
  rw [h] at this
  exact this

theorem mkPayload_nodup {p : OsnParams} {d0 nw d : KVs}
    (h : mkPayload p d0 nw = .ok d)
    (h0 : nodupKeys (keysOf d0) = true) :
    nodupKeys (keysOf d) = true := by
  rw [mkPayload] at h
  split at h
  · split at h
    · injection h with h
      subst h
      exact nodupKeys_setKV _ _ h0
    · simp at h
  · injection h with h
    subst h
    exact h0

theorem absorbed_of_equal {o' ov : KVs} (hnov : nodupKeys (keysOf ov) = true)
    (heq : Value.equal (.vobj o') (.vobj (mergeKV o' ov)) = true) :
    ∀ k v, (k, v) ∈ ov → ∃ cur, lookupKV o' k = some cur ∧
      Value.equal cur (mergeOneVal (some cur) v) = true := by
  intro k v hm
  have hw : lookupKV (mergeKV o' ov) k = some (mergeOneVal (lookupKV o' k) v) :=
    merge_lookup_in hnov hm
  have hsome : (lookupKV o' k).isSome = true :=
    equal_keysIn heq (by rw [hw]; rfl)
  obtain ⟨cur, hcur⟩ := Option.isSome_iff_exists.mp hsome
  obtain ⟨w, hwl, hew⟩ := equal_lookup heq hcur
  rw [hw, hcur] at hwl
  injection hwl with hwl
  exact ⟨cur, hcur, by rw [hwl]; exact hew⟩

theorem second_merge_equal {a ov : KVs}
    (hw : Value.wf (.vobj a) = true)
    (hnov : nodupKeys (keysOf ov) = true)
    (habs : ∀ k v, (k, v) ∈ ov → ∃ cur, lookupKV a k = some cur ∧
      Value.equal cur (mergeOneVal (some cur) v) = true) :
    Value.equal (.vobj a) (.vobj (mergeKV a ov)) = true := by
  apply equal_of_pointwise (wf_vobj_iff.mp hw).1
  · intro k v hl
    by_cases hk : k ∈ keysOf ov
    · obtain ⟨w, hm⟩ : ∃ w, (k, w) ∈ ov := by simpa [keysOf] using hk
      obtain ⟨cur, hcur, heq⟩ := habs k w hm
      rw [hl] at hcur
      injection hcur with hcur
      refine ⟨mergeOneVal (some v) w, ?_, ?_⟩
      · rw [merge_lookup_in hnov hm, hl]
      · rw [← hcur] at heq
        exact heq
    · exact ⟨v, by rw [merge_lookup_notin hk]; exact hl,
        equal_refl v (wf_of_lookup (wf_vobj_iff.mp hw).2 hl)⟩
  · intro k hsome
    by_cases hk : k ∈ keysOf ov
    · obtain ⟨w, hm⟩ : ∃ w, (k, w) ∈ ov := by simpa [keysOf] using hk
      obtain ⟨cur, hcur, -⟩ := habs k w hm
      rw [hcur]
      rfl
    · rw [merge_lookup_notin hk] at hsome
      exact hsome

theorem absorbed_after_update {f : String → String} {p : OsnParams}
    {o res o' ov nw d0 d n : KVs}
    (hwo : Value.wf (.vobj o) = true)
    (hpw : paramsWf p = true)
    (hrc : resourcesParamClean p = true)
    (hres : lookupKV o "resources" = some (.vobj res))
    (ho' : o' = setKV o "resources" (.vobj (scrubResourcesObj res)))
    (hov : ov = buildOverlay f p)
    (hnw : nw = mergeKV o' ov)
    (hd0 : d0 = diffKV o' nw)
    (hpay : mkPayload p d0 nw = .ok d)
    (hn : ∀ k, k ∈ keysOf ov → lookupKV n k = lookupKV (applyUpdateStored o d) k)
    {resN : KVs} (hresN : lookupKV n "resources" = some (.vobj resN)) :
    ∀ k v, (k, v) ∈ ov →
      ∃ cur, lookupKV (setKV n "resources" (.vobj (scrubResourcesObj resN))) k
          = some cur ∧
        Value.equal cur (mergeOneVal (some cur) v) = true := by
  intro k v hm
  have hwres : Value.wf (.vobj res) = true :=
    wf_of_lookup (wf_vobj_iff.mp hwo).2 hres
  have hwo' : Value.wf (.vobj o') = true := by
    rw [ho']
    exact wf_vobj_setKV _ hwo (wf_scrubResourcesObj hwres)
  have hnov : nodupKeys (keysOf ov) = true := by
    rw [hov]
    exact nodupKeys_buildOverlay f p
  have hwov : wfKVs ov = true := by
    rw [hov]
    exact wfKVs_buildOverlay hpw
  have hwnw : Value.wf (.vobj nw) = true := by
    rw [hnw]
    exact wf_mergeKVs _ _ hwo' hwov
  have hnnw : nodupKeys (keysOf nw) = true := (wf_vobj_iff.mp hwnw).1
  have hnd0 : nodupKeys (keysOf d0) = true := by
    rw [hd0, diffKV]
    exact nodupKeys_filter _ hnnw
  have hnd : nodupKeys (keysOf d) = true := mkPayload_nodup hpay hnd0
  have hv : v.wf = true :=
    wf_of_lookup hwov (lookup_of_mem_nodup hnov hm)
  have hkm : k ∈ keysOf ov := by
    rw [keysOf]
    exact List.mem_map.mpr ⟨(k, v), hm, rfl⟩
  have hnwk : lookupKV nw k = some (mergeOneVal (lookupKV o' k) v) := by
    rw [hnw]
    exact merge_lookup_in hnov hm
  by_cases hkr : k = "resources"
  · subst hkr
    have hlv : lookupKV ov "resources" = some v := lookup_of_mem_nodup hnov hm
    rw [hov, lookup_overlay_res] at hlv
    rcases hpres : p.resources with _ | pres
    · rw [hpres] at hlv
      simp at hlv
    · rw [hpres] at hlv
      simp only [Option.map_some'] at hlv
      injection hlv with hlv
      subst hlv
      have hwpres : Value.wf (.vobj pres) = true := wf_params_resources hpw hpres
      have ho'res : lookupKV o' "resources" =
          some (.vobj (scrubResourcesObj res)) := by
        rw [ho']
        exact lookup_setKV_self _ _ _
      have hnwres : lookupKV nw "resources" =
          some (.vobj (mergeKV (scrubResourcesObj res) pres)) := by
        rw [hnwk, ho'res]
        rfl
      have hdres : lookupKV d "resources" = lookupKV nw "resources" := by
        have h0 := mkPayload_lookup hpay "resources"
        rw [hpres] at h0
        simpa using h0
      have hdl : lookupKV d "resources" =
          some (.vobj (mergeKV (scrubResourcesObj res) pres)) := by
        rw [hdres, hnwres]
      have hnres : lookupKV n "resources" =
          some (.vobj (mergeKV (scrubResourcesObj res) pres)) := by
        rw [hn _ hkm, applyUpd_lookup_in hnd (lookup_mem hdl)]
      have hre : resN = mergeKV (scrubResourcesObj res) pres := by
        have h0 := hresN.symm.trans hnres
        injection h0 with h0
        exact Value.vobj.inj h0
      subst hre
      have hclean : scrubClean (mergeKV (scrubResourcesObj res) pres) = true := by
        apply scrubClean_merge (wf_vobj_iff.mp hwpres).1
          (scrubClean_scrubResourcesObj res)
        rw [resourcesParamClean, hpres] at hrc
        exact hrc
      have hscrubid :
          scrubResourcesObj (mergeKV (scrubResourcesObj res) pres) =
            mergeKV (scrubResourcesObj res) pres :=
        scrubResourcesObj_of_clean hclean
      refine ⟨.vobj (mergeKV (scrubResourcesObj res) pres), ?_, ?_⟩
      · rw [lookup_setKV_self, hscrubid]
      · have hM : mergeKV (mergeKV (scrubResourcesObj res) pres) pres =
            mergeKV (scrubResourcesObj res) pres :=
          mergeTwiceKV pres (scrubResourcesObj res) hwpres
        rw [show mergeOneVal
            (some (Value.vobj (mergeKV (scrubResourcesObj res) pres)))
            (Value.vobj pres) =
            Value.vobj (mergeKV (mergeKV (scrubResourcesObj res) pres) pres)
          from rfl, hM]
        exact equal_refl _ (wf_mergeKVs _ _ (wf_scrubResourcesObj hwres)
          (wf_vobj_iff.mp hwpres).2)
  · have hdd0 : lookupKV d k = lookupKV d0 k := by
      have h0 := mkPayload_lookup hpay k
      rw [if_neg (by simp [hkr])] at h0
      exact h0
    by_cases hkd : k ∈ keysOf d
    · obtain ⟨dv, hdv⟩ :=
        Option.isSome_iff_exists.mp (lookup_isSome_of_mem_keys hkd)
      have hld0 : lookupKV d0 k = some dv := by rw [← hdd0]; exact hdv
      rw [hd0, lookup_diff hnnw] at hld0
      cases hdf : differsAt o' nw k with
      | false => rw [hdf, if_neg (by simp)] at hld0; simp at hld0
      | true =>
        rw [hdf, if_pos rfl] at hld0
        have hdvval : dv = mergeOneVal (lookupKV o' k) v :=
          Option.some.inj (hld0.symm.trans hnwk)
        subst hdvval
        refine ⟨mergeOneVal (lookupKV o' k) v, ?_, ?_⟩
        · rw [lookup_setKV_ne _ _ hkr, hn k hkm,
            applyUpd_lookup_in hnd (lookup_mem hdv)]
        · rw [mergeTwiceVal (lookupKV o' k) v hv]
          apply equal_refl
          apply wf_mergeOneVal
          · intro w hw'
            exact wf_of_lookup (wf_vobj_iff.mp hwo').2 hw'
          · exact hv
    · have hdknone : lookupKV d k = none := lookup_none_of_notMem_keys hkd
      have hd0none : lookupKV d0 k = none := by rw [← hdd0]; exact hdknone
      have hdiff : differsAt o' nw k = false := by
        cases hdf : differsAt o' nw k with
        | false => rfl
        | true =>
          exfalso
          have h0 : lookupKV d0 k = lookupKV nw k := by
            rw [hd0, lookup_diff hnnw, hdf, if_pos rfl]
          rw [hd0none, hnwk] at h0
          simp at h0
      rw [differsAt, hnwk] at hdiff
      cases ho'k : lookupKV o' k with
      | none =>
        rw [ho'k] at hdiff
        simp at hdiff
      | some cur =>
        rw [ho'k] at hdiff
        have hdiff2 : (!(Value.equal cur (mergeOneVal (some cur) v))) = false :=
          hdiff
        have heq2 : Value.equal cur (mergeOneVal (some cur) v) = true := by
          cases hq : Value.equal cur (mergeOneVal (some cur) v) with
          | false => rw [hq] at hdiff2; simp at hdiff2
          | true => rfl
        have hok2 : lookupKV o k = some cur := by
          have h0 : lookupKV o' k = lookupKV o k := by
            rw [ho']
            exact lookup_setKV_ne _ _ hkr
          rw [← h0]
          exact ho'k
        refine ⟨cur, ?_, heq2⟩
        rw [lookup_setKV_ne _ _ hkr, hn k hkm, applyUpd_lookup_notin ?_, hok2]
        intro hmem
        exact hkd hmem

theorem runUpdateBody_no_change {c : Console} {p : OsnParams} {n n' : KVs}
    (hw : Value.wf (.vobj n') = true)
    (heq : Value.equal (.vobj n')
      (.vobj (mergeKV (copyKVs n') (buildOverlay c.resolvePeer p))) = true)
    (hadmin : adminStep p n' n = .ok (n, []))
    {finV : Value} (hfin : lookupKV n' "consenter_proposal_fin" = some finV)
    (hblock : (if isTruthy finV then none else p.config_block) = none) :
    runUpdateBody c p n n' =
      .ok ⟨⟨some n, c.clusterInfo, c.ca, c.resolveOSN, c.resolvePeer⟩, false,
           some (projectNode n'),
           if isTruthy finV then overlayActions p ++ [RAction.waitReady]
           else overlayActions p⟩ := by
  rw [runUpdateBody]
  dsimp only
  rw [update_findIllegal_none hw]
  rcases hpr : p.resources with _ | pres
  · simp only [mkPayload, hpr]
    simp only [heq, Bool.not_true, Bool.false_eq_true, if_false,
      List.append_nil]
    simp only [hadmin]
    simp only [hfin]
    simp only [hblock]
    rw [finishRun]
    simp only [hfin]
    cases isTruthy finV <;> simp
  · have hres2 : lookupKV (mergeKV (copyKVs n') (buildOverlay c.resolvePeer p))
        "resources" =
        some (mergeOneVal (lookupKV (copyKVs n') "resources") (.vobj pres)) :=
      merge_lookup_some (nodupKeys_buildOverlay _ p)
        (by rw [lookup_overlay_res, hpr]; rfl)
    simp only [mkPayload, hpr, hres2]
    simp only [heq, Bool.not_true, Bool.false_eq_true, if_false,
      List.append_nil]
    simp only [hadmin]
    simp only [hfin]
    simp only [hblock]
    rw [finishRun]
    simp only [hfin]
    cases isTruthy finV <;> simp

theorem payload_keys_permitted {f : String → String} {p : OsnParams}
    {o' d : KVs} (hwo' : Value.wf (.vobj o') = true)
    (hpay : mkPayload p
      (diffKV o' (mergeKV (copyKVs o') (buildOverlay f p)))
      (mergeKV (copyKVs o') (buildOverlay f p)) = .ok d)
    {k : String} (hk1 : ¬ k ∈ permittedChanges) (hk2 : k ≠ "resources") :
    ¬ k ∈ keysOf d := by
  apply mkPayload_keys hpay ?_ hk2
  intro hm
  rw [keysOf] at hm
  obtain ⟨kv, hkv, hk⟩ := List.mem_map.mp hm
  have hperm := update_diff_keys_permitted hwo' hkv
  rw [hk] at hperm
  exact hk1 hperm

theorem wfKVs_diff {a b : KVs} (h : wfKVs b = true) :
    wfKVs (diffKV a b) = true := by
  rw [diffKV]
  exact wfKVs_filter _ h

theorem mkPayload_wf {p : OsnParams} {d0 nw d : KVs}
    (h : mkPayload p d0 nw = .ok d) (h0 : wfKVs d0 = true)
    (hnw : Value.wf (.vobj nw) = true) : wfKVs d = true := by
  rw [mkPayload] at h
  split at h
  · split at h
    · rename_i rv hl
      injection h with h
      subst h
      exact wfKVs_setKV _ h0 (wf_of_lookup (wf_vobj_iff.mp hnw).2 hl)
    · simp at h
  · injection h with h
    subst h
    exact h0

theorem absorbed_transport {ov a b : KVs}
    (h : ∀ k v, (k, v) ∈ ov → ∃ cur, lookupKV a k = some cur ∧
      Value.equal cur (mergeOneVal (some cur) v) = true)
    (hl : ∀ k, k ∈ keysOf ov → lookupKV b k = lookupKV a k) :
    ∀ k v, (k, v) ∈ ov → ∃ cur, lookupKV b k = some cur ∧
      Value.equal cur (mergeOneVal (some cur) v) = true := by
  intro k v hm
  obtain ⟨cur, hc, he⟩ := h k v hm
  refine ⟨cur, ?_, he⟩
  rw [hl k (by rw [keysOf]; exact List.mem_map.mpr ⟨(k, v), hm, rfl⟩)]
  exact hc

theorem projectNode_adminStep {p : OsnParams} {var st st2 : KVs}
    {acts : List RAction} (h : adminStep p var st = .ok (st2, acts)) :
    projectNode st2 = projectNode st := by
  rcases adminStep_ok_state h with he | ⟨L, he⟩
  · rw [he]
  · rw [he, projectNode_setKV _ (by decide)]

theorem projectNode_setKV_res (n : KVs) (v : Value) :
    projectNode (setKV n "resources" v) = projectNode n :=
  projectNode_setKV _ (by decide)

theorem lookup_applyUpd_resources {f : String → String} {p : OsnParams}
    {o res o' d : KVs}
    (hwo : Value.wf (.vobj o) = true)
    (hwo' : Value.wf (.vobj o') = true)
    (hnd : nodupKeys (keysOf d) = true)
    (hres : lookupKV o "resources" = some (.vobj res))
    (ho' : o' = setKV o "resources" (.vobj (scrubResourcesObj res)))
    (hpay : mkPayload p
      (diffKV o' (mergeKV (copyKVs o') (buildOverlay f p)))
      (mergeKV (copyKVs o') (buildOverlay f p)) = .ok d) :
    ∃ resN, lookupKV (applyUpdateStored o d) "resources" =
      some (.vobj resN) := by
  have ho'res : lookupKV o' "resources" =
      some (.vobj (scrubResourcesObj res)) := by
    rw [ho']
    exact lookup_setKV_self _ _ _
  rcases hpr : p.resources with _ | pres
  · have hovres : ¬ "resources" ∈ keysOf (buildOverlay f p) := by
      apply notMem_keys_of_lookup_none
      rw [lookup_overlay_res, hpr]
      rfl
    have hnwres : lookupKV (mergeKV (copyKVs o') (buildOverlay f p))
        "resources" = some (.vobj (scrubResourcesObj res)) := by
      rw [merge_lookup_notin hovres, copyKVs_id]
      exact ho'res
    have hdiffres : differsAt o'
        (mergeKV (copyKVs o') (buildOverlay f p)) "resources" = false := by
      rw [differsAt, hnwres, ho'res]
      dsimp only
      rw [equal_refl _ (wf_scrubResourcesObj
        (wf_of_lookup (wf_vobj_iff.mp hwo).2 hres))]
      rfl
    have hnnw : nodupKeys (keysOf
        (mergeKV (copyKVs o') (buildOverlay f p))) = true := by
      rw [copyKVs_id]
      exact nodupKeys_merge _ (wf_vobj_iff.mp hwo').1
    have hd0none : lookupKV
        (diffKV o' (mergeKV (copyKVs o') (buildOverlay f p)))
        "resources" = none := by
      rw [lookup_diff hnnw, hdiffres]
      simp
    have hdnone : lookupKV d "resources" = none := by
      have h0 := mkPayload_lookup hpay "resources"
      rw [hpr] at h0
      simpa [hd0none] using h0
    rw [applyUpd_lookup_notin (notMem_keys_of_lookup_none hdnone), hres]
    exact ⟨res, rfl⟩
  · have hovres : lookupKV (buildOverlay f p) "resources" =
        some (.vobj pres) := by
      rw [lookup_overlay_res, hpr]
      rfl
    have hnwres : lookupKV (mergeKV (copyKVs o') (buildOverlay f p))
        "resources" =
        some (mergeOneVal (lookupKV (copyKVs o') "resources") (.vobj pres)) :=
      merge_lookup_some (nodupKeys_buildOverlay f p) hovres
    have hdres : lookupKV d "resources" =
        some (mergeOneVal (lookupKV (copyKVs o') "resources") (.vobj pres)) := by
      have h0 := mkPayload_lookup hpay "resources"
      rw [hpr] at h0
      simpa [hnwres] using h0
    have hdval : lookupKV d "resources" =
        some (.vobj (mergeKV (scrubResourcesObj res) pres)) := by
      rw [hdres, copyKVs_id, ho'res]
      rfl
    rw [applyUpd_lookup_in hnd (lookup_mem hdval)]
    exact ⟨_, rfl⟩

theorem wf_adminStep {p : OsnParams} {var st st2 : KVs}
    {acts : List RAction} (h : adminStep p var st = .ok (st2, acts))
    (hw : Value.wf (.vobj st) = true) : Value.wf (.vobj st2) = true := by
  rcases adminStep_ok_state h with he | ⟨L, he⟩
  · rw [he]
    exact hw
  · rw [he]
    exact wf_vobj_setKV _ hw (wf_varr_vstr L)

theorem second_run_exists {c : Console} {p : OsnParams} {r : RunResult}
    {N res2 : KVs} {finV : Value}
    (hp : p.state = "present")
    (hcons : r.console =
      ⟨some N, c.clusterInfo, c.ca, c.resolveOSN, c.resolvePeer⟩)
    (hclean2 : (lookupKV N "deployment_attrs_missing").isNone = true)
    (hresN : lookupKV N "resources" = some (.vobj res2))
    (hwN : Value.wf (.vobj N) = true)
    (habs : ∀ k v, (k, v) ∈ buildOverlay c.resolvePeer p →
      ∃ cur, lookupKV (setKV N "resources"
        (.vobj (scrubResourcesObj res2))) k = some cur ∧
        Value.equal cur (mergeOneVal (some cur) v) = true)
    (hadmin : adminStep p
      (setKV N "resources" (.vobj (scrubResourcesObj res2))) N = .ok (N, []))
    (hfin : lookupKV (setKV N "resources" (.vobj (scrubResourcesObj res2)))
      "consenter_proposal_fin" = some finV)
    (hblock : (if isTruthy finV then none else p.config_block) = none)
    (hout : r.output = some (projectNode
      (setKV N "resources" (.vobj (scrubResourcesObj res2))))) :
    ∃ r₂, reconcile r.console p = .ok r₂ ∧ r₂.changed = false ∧
      r₂.output = r.output := by
  have hwN' : Value.wf (.vobj (setKV N "resources"
      (.vobj (scrubResourcesObj res2)))) = true :=
    wf_vobj_setKV _ hwN (wf_scrubResourcesObj
      (wf_of_lookup (wf_vobj_iff.mp hwN).2 hresN))
  have heq2 : Value.equal
      (.vobj (setKV N "resources" (.vobj (scrubResourcesObj res2))))
      (.vobj (mergeKV (copyKVs (setKV N "resources"
        (.vobj (scrubResourcesObj res2)))) (buildOverlay c.resolvePeer p)))
      = true := by
    rw [copyKVs_id]
    exact second_merge_equal hwN' (nodupKeys_buildOverlay _ p) habs
  rw [hcons, hout]
  rw [reconcile_update_dispatch hp rfl hclean2]
  rw [runUpdateBranch, scrubObserved_eq hresN]
  have hrun : runUpdateBody
      ⟨some N, c.clusterInfo, c.ca, c.resolveOSN, c.resolvePeer⟩ p N
      (setKV N "resources" (.vobj (scrubResourcesObj res2))) =
      .ok ⟨⟨some N, c.clusterInfo, c.ca, c.resolveOSN, c.resolvePeer⟩, false,
           some (projectNode (setKV N "resources"
             (.vobj (scrubResourcesObj res2)))),
           if isTruthy finV then overlayActions p ++ [RAction.waitReady]
           else overlayActions p⟩ :=
    runUpdateBody_no_change hwN' heq2 hadmin hfin hblock
  exact ⟨_, hrun, rfl, rfl⟩

theorem hasPath_nil (v : Value) : hasPath v [] = true := by
  cases v <;> rfl

theorem hasPath_getItem_ok {v w : Value} {k : String} (ks : List String)
    (h : getItem v k = .ok w) : hasPath v (k :: ks) = hasPath w ks := by
  cases v with
  | vobj fs =>
    simp only [getItem] at h
    rw [hasPath]
    cases hl : lookupKV fs k <;> rw [hl] at h
    · simp at h
    · injection h with h'
      subst h'
      rfl
  | vnull => simp [getItem] at h
  | vbool b => simp [getItem] at h
  | vstr s => simp [getItem] at h
  | vint n => simp [getItem] at h
  | varr xs => simp [getItem] at h

end Lemmas

/-- C1: for every Organization `O`, parsing back the MSP config tree
built from it is lossless — `msp_to_organization(O.msp_id,
organization_to_msp(O, false, {}))` returns an Organization equal to
`O` on `root_certs`, `intermediate_certs`, `admins`,
`revocation_list`, `tls_root_certs`, `tls_intermediate_certs`,
`fabric_node_ous`, `organizational_unit_identifiers` and `msp_id`,
with `signing_identity` always null on the result. -/
theorem c1_organization_msp_roundtrip (O : Organization) :
    msp_to_organization O.msp_id (Value.vobj (organization_to_msp O false [])) =
      Except.ok ⟨O.msp_id, O.msp_id, O.root_certs, O.intermediate_certs,
                 O.admins, O.revocation_list, O.tls_root_certs,
                 O.tls_intermediate_certs, O.fabric_node_ous,
                 O.organizational_unit_identifiers, Value.vnull⟩ := rfl

/-- C7: `msp_to_organization` fails with a `MalformedMspError` whenever
the `values.MSP` path or the nested `value.config` path is absent from
the tree, and a successfully returned Organization never has
`signing_identity` populated. -/
theorem c7_malformed_msp_and_signing_identity :
    (∀ (msp_id : String) (msp : Value),
        (hasPath msp ["values", "MSP"] = false ∨
         hasPath msp ["values", "MSP", "value", "config"] = false) →
        ∃ e, msp_to_organization msp_id msp = .error e) ∧
    (∀ (msp_id : String) (msp : Value) (org : Organization),
        msp_to_organization msp_id msp = .ok org →
        org.signing_identity = .vnull) := by
  constructor
  · intro msp_id msp h
    cases h1 : getItem msp "values" with
    | error e => exact ⟨e, by simp [msp_to_organization, bind, Except.bind, h1]⟩
    | ok v1 =>
      cases h2 : getItem v1 "MSP" with
      | error e => exact ⟨e, by simp [msp_to_organization, bind, Except.bind, h1, h2]⟩
      | ok v2 =>
        have hp1 : hasPath msp ["values", "MSP"] = true := by
          rw [hasPath_getItem_ok _ h1, hasPath_getItem_ok _ h2, hasPath_nil]
        cases h3 : getItem v2 "value" with
        | error e =>
          exact ⟨e, by simp [msp_to_organization, bind, Except.bind, h1, h2, h3]⟩
        | ok v3 =>
          cases h4 : getItem v3 "config" with
          | error e =>
            exact ⟨e, by simp [msp_to_organization, bind, Except.bind, h1, h2, h3, h4]⟩
          | ok v4 =>
            have hp2 : hasPath msp ["values", "MSP", "value", "config"] = true := by
              rw [hasPath_getItem_ok _ h1, hasPath_getItem_ok _ h2,
                  hasPath_getItem_ok _ h3, hasPath_getItem_ok _ h4, hasPath_nil]
            rcases h with h | h <;> simp_all
  · intro msp_id msp org h
    unfold msp_to_organization at h
    simp only [bind, Except.bind] at h
    repeat' split at h
    any_goals simp at h
    injection h with h'
    rw [← h']

/-- Witness for C7: the empty tree lacks the `values.MSP` path and is
rejected, and parsing a well-formed sample tree yields a null
`signing_identity`. -/
theorem c7_malformed_msp_witness :
    (∃ e, msp_to_organization "SampleMSP" (Value.vobj []) = .error e) ∧
    orgNamed.signing_identity = .vnull :=
  ⟨c7_malformed_msp_and_signing_identity.1 "SampleMSP" (Value.vobj []) (Or.inl rfl),
   c7_malformed_msp_and_signing_identity.2 "M" mspTreeNamed orgNamed rfl⟩

/-- C8: for every Organization, `organization_to_msp(organization,
false, {})` produces a tree whose policies mapping holds exactly the
keys Admins, Readers and Writers (no Endorsement), each a type-1
signature policy over the single ROLE principal with the
organization's `msp_id` (role ADMIN for Admins, MEMBER for Readers and
Writers) and a 1-out-of-1 rule whose sole entry is `signed_by = 0`. -/
theorem c8_default_policies (O : Organization) :
    lookupKV (organization_to_msp O false []) "policies" =
      some (Value.vobj
        [("Admins", Value.vobj
           [("mod_policy", Value.vstr "Admins"),
            ("policy", Value.vobj
              [("type", Value.vint 1),
               ("value", Value.vobj
                 [("identities", Value.varr
                    [Value.vobj
                      [("principal", Value.vobj
                         [("msp_identifier", Value.vstr O.msp_id),
                          ("role", Value.vstr "ADMIN")]),
                       ("principal_classification", Value.vstr "ROLE")]]),
                  ("rule", Value.vobj
                    [("n_out_of", Value.vobj
                       [("n", Value.vint 1),
                        ("rules", Value.varr
                          [Value.vobj [("signed_by", Value.vint 0)]])])])])])]),
         ("Readers", Value.vobj
           [("mod_policy", Value.vstr "Admins"),
            ("policy", Value.vobj
              [("type", Value.vint 1),
               ("value", Value.vobj
                 [("identities", Value.varr
                    [Value.vobj
                      [("principal", Value.vobj
                         [("msp_identifier", Value.vstr O.msp_id),
                          ("role", Value.vstr "MEMBER")]),
                       ("principal_classification", Value.vstr "ROLE")]]),
                  ("rule", Value.vobj
                    [("n_out_of", Value.vobj
                       [("n", Value.vint 1),
                        ("rules", Value.varr
                          [Value.vobj [("signed_by", Value.vint 0)]])])])])])]),
         ("Writers", Value.vobj
           [("mod_policy", Value.vstr "Admins"),
            ("policy", Value.vobj
              [("type", Value.vint 1),
               ("value", Value.vobj
                 [("identities", Value.varr
                    [Value.vobj
                      [("principal", Value.vobj
                         [("msp_identifier", Value.vstr O.msp_id),
                          ("role", Value.vstr "MEMBER")]),
                       ("principal_classification", Value.vstr "ROLE")]]),
                  ("rule", Value.vobj
                    [("n_out_of", Value.vobj
                       [("n", Value.vint 1),
                        ("rules", Value.varr
                          [Value.vobj [("signed_by", Value.vint 0)]])])])])])])]) := rfl

/-- C9: `msp_to_organization` ignores the `name` stored inside
`values.MSP.value.config` — both the name and the msp id of the
returned Organization equal the `msp_id` argument. -/
theorem c9_parser_ignores_stored_name (msp_id : String) (msp : Value)
    (org : Organization) (h : msp_to_organization msp_id msp = .ok org) :
    org.name = msp_id ∧ org.msp_id = msp_id := by
  unfold msp_to_organization at h
  simp only [bind, Except.bind] at h
  repeat' split at h
  any_goals simp at h
  injection h with h'
  rw [← h']
  exact ⟨rfl, rfl⟩

/-- Witness for C9: parsing a tree whose stored config name is
`NotTheMspId` under msp id `M` yields name `M` and msp id `M`. -/
theorem c9_parser_ignores_stored_name_witness :
    orgNamed.name = "M" ∧ orgNamed.msp_id = "M" :=
  c9_parser_ignores_stored_name "M" mspTreeNamed orgNamed rfl


/-- C3 counterexample: supplying a different `msp_id` against an
existing clean node does not raise any error — the reconciliation
returns successfully with `changed = false` and the node's stored
`msp_id` unchanged, because the update overlay never contains
`msp_id`.  This falsifies the claim that a change to `msp_id` raises
the illegal-change error. -/
theorem c3_counterexample_msp_id_change_ignored :
    (∃ r, reconcile osnConsoleEx c3Params = .ok r) ∧
    (reconcile osnConsoleEx c3Params).toOption.map RunResult.changed =
      some false ∧
    ((reconcile osnConsoleEx c3Params).toOption.bind
      (fun r => r.console.node)).bind (fun n => lookupKV n "msp_id") =
      some (.vstr "Org1MSP") :=
  ⟨⟨_, rfl⟩, rfl, rfl⟩

/-- C3 amended: the permitted-change guard of the update path can
never fire.  The caller overlay only ever contains the permitted keys
`resources`, `config_override`, `crypto` and `version`, so the
computed diff never holds a key outside the permitted set and the
reconciliation never returns the illegal-change error (for any
well-formed console state); in particular a changed `msp_id` parameter
is silently ignored. -/
theorem c3_amended_illegal_change_unreachable (c : Console) (p : OsnParams)
    (f : String) (ov nv : Option Value) (hw : consoleNodeWf c = true) :
    reconcile c p ≠ Except.error (RErr.illegalChange f ov nv) := by
  intro h
  rw [reconcile] at h
  split at h
  · split at h <;> simp at h
  · split at h
    · cases hcb : runCreateBranch
          (⟨none, c.clusterInfo, c.ca, c.resolveOSN, c.resolvePeer⟩ : Console) p with
      | error e =>
        rw [hcb] at h
        simp only [Except.map] at h
        injection h with h
        exact createBranch_not_illegal (h ▸ hcb)
      | ok r =>
        rw [hcb] at h
        simp [Except.map] at h
    · split at h
      · exact createBranch_not_illegal h
      · rename_i o hnode
        have hwo : Value.wf (.vobj o) = true := by
          rw [consoleNodeWf, hnode] at hw
          exact hw
        exact updateBranch_not_illegal hwo h

/-- Witness for the amended C3: the theorem applies to the fixture
console, whose node is well-formed. -/
theorem c3_amended_witness :
    reconcile osnConsoleEx c3Params ≠
      Except.error (RErr.illegalChange "msp_id" none none) :=
  c3_amended_illegal_change_unreachable osnConsoleEx c3Params "msp_id"
    none none (by decide)


/-- C2: the update path does not resolve version ranges the same way
as the create path.  At the fixture inputs, whose console resolves the
range `>=2.2,<3.0` to `osn->=2.2,<3.0` via
`resolve_ordering_service_node_version` and to `peer->=2.2,<3.0` via
`resolve_peer_version`, the create path invokes the
ordering-service-node resolution while the update path invokes the
peer resolution (source line 823, `console.resolve_peer_version`) and
stores the peer-resolved version on the node. -/
theorem c2_update_resolves_via_peer_resolution :
    (reconcile osnConsoleEx c2UpdateParams).toOption.map
        (fun r => (hasResolvePeer r.actions, hasResolveOSN r.actions)) =
      some (true, false) ∧
    ((reconcile osnConsoleEx c2UpdateParams).toOption.bind
        (fun r => r.console.node)).bind (fun n => lookupKV n "version") =
      some (.vstr "peer->=2.2,<3.0") ∧
    (reconcile c2CreateConsole c2CreateParams).toOption.map
        (fun r => (hasResolvePeer r.actions, hasResolveOSN r.actions)) =
      some (false, true) ∧
    ((reconcile c2CreateConsole c2CreateParams).toOption.bind
        (fun r => r.console.node)).bind (fun n => lookupKV n "version") =
      some (.vstr "osn->=2.2,<3.0") :=
  ⟨rfl, rfl, rfl, rfl⟩

/-- C10 counterexample: the no-difference consequence fails when the
caller's own `resources` name the scrubbed fields.  The observed node
`c10Node` carries exactly the caller's `resources` and
`config_override` — its differences from the desired overlay are empty,
hence trivially confined to the scrubbed fields — yet because the
scrub deletes `orderer.limits` from the observed copy only, the merge
reintroduces it from the overlay, a difference is detected and an
update console call is issued (`changed = true`).  This falsifies the
claim's universal no-update consequence. -/
theorem c10_counterexample_caller_limits_update :
    c10CexParams.resources = some c10Res ∧
    c10CexParams.config_override = some [] ∧
    lookupKV c10Node "resources" = some (.vobj c10Res) ∧
    lookupKV c10Node "config_override" = some (.vobj []) ∧
    (reconcile c10Console c10CexParams).toOption.map
      (fun r => (r.changed, hasUpdateNode r.actions)) = some (true, true) :=
  ⟨rfl, rfl, rfl, rfl, rfl⟩

/-- C10 amended: (a) on the update path the observed resources subtree
is scrubbed before diffing — `scrubObserved` rewrites exactly the
`resources` key, and the scrubbed subtree has no `init` key and no
`limits` key under its `orderer` or `proxy` sections, every other
top-level key of the observed state being untouched; (b) whenever the
scrubbed observed state absorbs the desired overlay (merging the
overlay over it changes nothing — which is what "differences confined
to the scrubbed fields" amounts to once the caller's own resources
avoid those fields), a successful present-state reconciliation against
the existing clean node issues no update console call. -/
theorem c10_amended_scrub_and_absorbed_no_update :
    (∀ (o res : KVs), lookupKV o "resources" = some (.vobj res) →
       scrubObserved o = .ok (setKV o "resources" (.vobj (scrubResourcesObj res))) ∧
       (lookupKV (scrubResourcesObj res) "init").isNone = true ∧
       limitsClean (scrubResourcesObj res) "orderer" = true ∧
       limitsClean (scrubResourcesObj res) "proxy" = true ∧
       (∀ k, k ≠ "resources" →
          lookupKV (setKV o "resources" (.vobj (scrubResourcesObj res))) k =
            lookupKV o k)) ∧
    (∀ (c : Console) (p : OsnParams) (o o' : KVs) (r : RunResult),
       p.state = "present" → c.node = some o →
       (lookupKV o "deployment_attrs_missing").isNone = true →
       scrubObserved o = .ok o' →
       Value.equal (.vobj o') (.vobj (newState c p o')) = true →
       reconcile c p = .ok r →
       hasUpdateNode r.actions = false) := by
  constructor
  · intro o res h
    have hsc := scrubClean_scrubResourcesObj res
    rw [scrubClean] at hsc
    simp only [Bool.and_eq_true] at hsc
    exact ⟨by rw [scrubObserved, h], hsc.1.1, hsc.1.2, hsc.2,
      fun k hk => lookup_setKV_ne o _ hk⟩
  · intro c p o o' r hp hnode hclean hs heq hok
    rw [reconcile_update_dispatch hp hnode hclean, runUpdateBranch, hs] at hok
    have hok : runUpdateBody c p o o' = .ok r := hok
    rw [runUpdateBody] at hok
    dsimp only at hok
    have heq' : Value.equal (.vobj o')
        (.vobj (mergeKV (copyKVs o') (buildOverlay c.resolvePeer p))) = true := heq
    rw [heq'] at hok
    simp only [Bool.not_true, Bool.false_eq_true, if_false, List.append_nil] at hok
    split at hok
    · simp at hok
    · split at hok
      · simp at hok
      · rename_i d hpay
        split at hok
        · simp at hok
        · rename_i st2 editActs hstep
          split at hok
          · simp at hok
          · rename_i finV hfin
            split at hok
            · rename_i blob hblob
              obtain ⟨-, -, -, finV2, -, hacts⟩ := finishRun_ok hok
              rw [hacts]
              cases isTruthy finV2 <;>
                simp [hasUpdateNode_append, hasUpdateNode_overlayActions,
                  hasUpdateNode_adminStep hstep, hasUpdateNode]
            · obtain ⟨-, -, -, finV2, -, hacts⟩ := finishRun_ok hok
              rw [hacts]
              cases isTruthy finV2 <;>
                simp [hasUpdateNode_append, hasUpdateNode_overlayActions,
                  hasUpdateNode_adminStep hstep, hasUpdateNode]

/-- Witness for the amended C10: the fixture node's resources are
already clean, so the scrub leaves them in place, and the overlay of
`c10AbsorbParams` (matching `config_override` only) is absorbed, so
the run issues no update console call. -/
theorem c10_amended_witness :
    scrubObserved osnNodeEx =
      .ok (setKV osnNodeEx "resources" (.vobj (scrubResourcesObj c10ObsRes))) ∧
    hasUpdateNode c10AbsorbResult.actions = false :=
  ⟨(c10_amended_scrub_and_absorbed_no_update.1 osnNodeEx c10ObsRes rfl).1,
   c10_amended_scrub_and_absorbed_no_update.2 osnConsoleEx c10AbsorbParams
     osnNodeEx osnNodeEx c10AbsorbResult rfl rfl rfl rfl rfl rfl⟩

/-- C6: on the update path, when the merged new state differs from the
(scrubbed) observed state, exactly one update console call is issued
and its payload consists of exactly the top-level keys on which the
observed and new states differ, each carrying the full new value, with
the single exception that when the caller supplied `resources` the
entire new resources subtree is included in the payload whether or not
it differs. -/
theorem c6_update_payload_exact_diff (c : Console) (p : OsnParams)
    (o o' : KVs) (r : RunResult)
    (hp : p.state = "present") (hnode : c.node = some o)
    (hclean : (lookupKV o "deployment_attrs_missing").isNone = true)
    (hwf : consoleNodeWf c = true)
    (hs : scrubObserved o = .ok o')
    (hne : Value.equal (.vobj o') (.vobj (newState c p o')) = false)
    (hok : reconcile c p = .ok r) :
    ∃ d, updatePayloads r.actions = [d] ∧
      ∀ k, lookupKV d k =
        if p.resources.isSome && (k == "resources") then
          lookupKV (newState c p o') k
        else if differsAt o' (newState c p o') k then
          lookupKV (newState c p o') k
        else none := by
  have hwo : Value.wf (.vobj o) = true := by
    rw [consoleNodeWf, hnode] at hwf
    exact hwf
  have hwo' : Value.wf (.vobj o') = true := wf_scrubObserved hwo hs
  rw [reconcile_update_dispatch hp hnode hclean, runUpdateBranch, hs] at hok
  have hok : runUpdateBody c p o o' = .ok r := hok
  rw [runUpdateBody] at hok
  dsimp only at hok
  have hne' : Value.equal (.vobj o')
      (.vobj (mergeKV (copyKVs o') (buildOverlay c.resolvePeer p))) = false := hne
  rw [hne'] at hok
  simp only [Bool.not_false, eq_self_iff_true, if_true] at hok
  split at hok
  · simp at hok
  · split at hok
    · simp at hok
    · rename_i d hpay
      have hchar : ∀ k, lookupKV d k =
          if p.resources.isSome && (k == "resources") then
            lookupKV (newState c p o') k
          else if differsAt o' (newState c p o') k then
            lookupKV (newState c p o') k
          else none := by
        intro k
        have hn : nodupKeys (keysOf
            (mergeKV (copyKVs o') (buildOverlay c.resolvePeer p))) = true := by
          rw [copyKVs_id]
          exact nodupKeys_merge _ (wf_vobj_iff.mp hwo').1
        rw [mkPayload_lookup hpay k]
        simp only [newState]
        by_cases hrk : (p.resources.isSome && (k == "resources")) = true
        · rw [if_pos hrk, if_pos hrk]
        · rw [if_neg hrk, if_neg hrk]
          exact lookup_diff hn
      refine ⟨d, ?_, hchar⟩
      split at hok
      · simp at hok
      · rename_i st2 editActs hstep
        split at hok
        · simp at hok
        · rename_i finV hfin
          split at hok
          · rename_i blob hblob
            obtain ⟨-, -, -, finV2, -, hacts⟩ := finishRun_ok hok
            rw [hacts]
            cases isTruthy finV2 <;>
              simp [updatePayloads_append, updatePayloads_overlayActions,
                updatePayloads_adminStep hstep, updatePayloads]
          · obtain ⟨-, -, -, finV2, -, hacts⟩ := finishRun_ok hok
            rw [hacts]
            cases isTruthy finV2 <;>
              simp [updatePayloads_append, updatePayloads_overlayActions,
                updatePayloads_adminStep hstep, updatePayloads]

/-- Witness for C6: supplying a version against the fixture node makes
the merged state differ, and the single update payload satisfies the
diff characterization. -/
theorem c6_update_payload_witness :
    ∃ d, updatePayloads c6Result.actions = [d] ∧
      ∀ k, lookupKV d k =
        if c6Params.resources.isSome && (k == "resources") then
          lookupKV (newState osnConsoleEx c6Params osnNodeEx) k
        else if differsAt osnNodeEx (newState osnConsoleEx c6Params osnNodeEx) k then
          lookupKV (newState osnConsoleEx c6Params osnNodeEx) k
        else none :=
  c6_update_payload_exact_diff osnConsoleEx c6Params osnNodeEx osnNodeEx
    c6Result rfl rfl rfl rfl rfl rfl rfl

/-- C5: admin-certificate reconciliation.  On the update path, whenever
the desired admin certificates are determinable — from the `admins`
parameter when non-empty, else `crypto.enrollment.component.admincerts`,
else `crypto.msp.component.admincerts`, in that precedence order
(`getExpectedAdmins`) — and the observed node carries an `admin_certs`
list, a successful run's admin-cert edits are exactly: one incremental
`edit_admin_certs(append, remove)` call carrying the two sides of the
symmetric difference of the whitespace-normalized certificate sets, or
no call at all when the difference is empty; never a full replace.  On
the create path no admin-cert edit is issued, and the created node's
stored admin certificates are exactly the desired `admins`, so the
symmetric difference after create is empty and the reconciliation step
has nothing to do there. -/
theorem c5_admin_cert_reconciliation :
    (∀ (c : Console) (p : OsnParams) (o o' : KVs) (r : RunResult)
       (av : Value) (actual : List String),
       p.state = "present" → c.node = some o →
       (lookupKV o "deployment_attrs_missing").isNone = true →
       consoleNodeWf c = true →
       scrubObserved o = .ok o' →
       reconcile c p = .ok r →
       (getExpectedAdmins p).isEmpty = false →
       lookupKV o "admin_certs" = some av →
       asStringList av = .ok actual →
       adminEdits r.actions =
         (let eset := dedupFirst ((getExpectedAdmins p).map normalize_whitespace)
          let aset := dedupFirst (actual.map normalize_whitespace)
          let app := eset.filter (fun x => !(aset.contains x))
          let rem := aset.filter (fun x => !(eset.contains x))
          if app.isEmpty && rem.isEmpty then [] else [(app, rem)])) ∧
    (∀ (c : Console) (p : OsnParams) (r : RunResult),
       p.state = "present" → c.node = none →
       reconcile c p = .ok r →
       adminEdits r.actions = [] ∧
       ∃ st, r.console.node = some st ∧
         lookupKV st "admin_certs" =
           some (.varr ((p.admins.getD []).map .vstr))) := by
  constructor
  · intro c p o o' r av actual hp hnode hclean hwf hs hok hex hav hstr
    have hwo : Value.wf (.vobj o) = true := by
      rw [consoleNodeWf, hnode] at hwf
      exact hwf
    have hwo' : Value.wf (.vobj o') = true := wf_scrubObserved hwo hs
    have hav' : lookupKV o' "admin_certs" = some av := by
      obtain ⟨res, hl, he⟩ := scrubObserved_shape hs
      subst he
      rw [lookup_setKV_ne _ _ (by decide : ("admin_certs" : String) ≠ "resources")]
      exact hav
    rw [reconcile_update_dispatch hp hnode hclean, runUpdateBranch, hs] at hok
    have hok : runUpdateBody c p o o' = .ok r := hok
    rw [runUpdateBody] at hok
    dsimp only at hok
    split at hok
    · simp at hok
    · split at hok
      · simp at hok
      · rename_i d hpay
        have hnotin : ¬ "admin_certs" ∈ keysOf d := by
          apply mkPayload_keys hpay ?_ (by decide)
          intro hm
          rw [keysOf] at hm
          obtain ⟨kv, hkv, hk⟩ := List.mem_map.mp hm
          have hperm := update_diff_keys_permitted hwo' hkv
          rw [hk] at hperm
          simp [permittedChanges] at hperm
        have havu : lookupKV (applyUpdateStored o d) "admin_certs" = some av := by
          rw [applyUpd_lookup_notin hnotin]
          exact hav
        cases hcu : Value.equal (.vobj o')
            (.vobj (mergeKV (copyKVs o') (buildOverlay c.resolvePeer p))) with
        | true =>
          rw [hcu] at hok
          simp only [Bool.not_true, Bool.false_eq_true, if_false,
            List.append_nil] at hok
          split at hok
          · simp at hok
          · rename_i st2 editActs hstep
            have hed := adminStep_edits hex hav' hstr hstep
            split at hok
            · simp at hok
            · rename_i finV hfin
              split at hok
              · obtain ⟨-, -, -, finV2, -, hacts2⟩ := finishRun_ok hok
                rw [hacts2]
                cases isTruthy finV2 <;>
                  simp [adminEdits_append, adminEdits_overlayActions,
                    adminEdits, hed]
              · obtain ⟨-, -, -, finV2, -, hacts2⟩ := finishRun_ok hok
                rw [hacts2]
                cases isTruthy finV2 <;>
                  simp [adminEdits_append, adminEdits_overlayActions,
                    adminEdits, hed]
        | false =>
          rw [hcu] at hok
          simp only [Bool.not_false, eq_self_iff_true, if_true] at hok
          split at hok
          · simp at hok
          · rename_i st2 editActs hstep
            have hed := adminStep_edits hex havu hstr hstep
            split at hok
            · simp at hok
            · rename_i finV hfin
              split at hok
              · obtain ⟨-, -, -, finV2, -, hacts2⟩ := finishRun_ok hok
                rw [hacts2]
                cases isTruthy finV2 <;>
                  simp [adminEdits_append, adminEdits_overlayActions,
                    adminEdits, hed]
              · obtain ⟨-, -, -, finV2, -, hacts2⟩ := finishRun_ok hok
                rw [hacts2]
                cases isTruthy finV2 <;>
                  simp [adminEdits_append, adminEdits_overlayActions,
                    adminEdits, hed]
  · intro c p r hp hnode hok
    rw [reconcile_create_dispatch hp hnode] at hok
    exact createBranch_ok_shape hok

/-- Witness for C5: desired admin certificates `{A, B}` against the
fixture node's observed `{B, C}` yield exactly one incremental edit
with `append = [A]` and `remove = [C]`. -/
theorem c5_admin_cert_witness :
    adminEdits c5Result.actions = [(["A"], ["C"])] := by
  have h := c5_admin_cert_reconciliation.1 c5Console c5Params c5Node c5Node
    c5Result (.varr [.vstr "B", .vstr "C"]) ["B", "C"]
    rfl rfl rfl rfl rfl rfl rfl rfl rfl
  exact h.trans rfl

/-- C4 counterexample: reconciliation is not idempotent for every
desired spec.  With a spec whose `resources` name the server-managed
`orderer.limits` field, even against a console whose stored node is
already identical to the desired state, the first run reports
`changed = true` and issues an update, and so does a second run
against the console state the first run left behind — the scrub keeps
deleting the limits from the observed copy while the merge keeps
reintroducing them from the caller's resources. -/
theorem c4_counterexample_not_idempotent :
    ∃ r₁, reconcile c10Console c10CexParams = .ok r₁ ∧ r₁.changed = true ∧
      ∃ r₂, reconcile r₁.console c10CexParams = .ok r₂ ∧
        r₂.changed = true :=
  ⟨_, rfl, rfl, _, rfl, rfl⟩

/-- C4 amended: idempotence of the update path holds once the caller's
`resources` avoid the scrubbed fields.  For every present-state spec
with well-formed dictionary parameters whose resources are free of
`orderer.limits`, `proxy.limits` and `init`, and every console holding
a clean well-formed node, a successful reconciliation run `r` is a
fixpoint: reconciling the same spec against the console state `r` left
behind succeeds with `changed = false` and returns the same observed
output as the first run. -/
theorem c4_amended_update_idempotent (c : Console) (p : OsnParams)
    (o : KVs) (r : RunResult)
    (hp : p.state = "present") (hnode : c.node = some o)
    (hclean : (lookupKV o "deployment_attrs_missing").isNone = true)
    (hwf : consoleNodeWf c = true)
    (hpw : paramsWf p = true)
    (hrc : resourcesParamClean p = true)
    (hok : reconcile c p = .ok r) :
    ∃ r₂, reconcile r.console p = .ok r₂ ∧ r₂.changed = false ∧
      r₂.output = r.output := by
  have hwo : Value.wf (.vobj o) = true := by
    rw [consoleNodeWf, hnode] at hwf
    exact hwf
  rw [reconcile_update_dispatch hp hnode hclean, runUpdateBranch] at hok
  split at hok
  · simp at hok
  · rename_i o' hs
    obtain ⟨res, hres, ho'⟩ := scrubObserved_shape hs
    have hwo' : Value.wf (.vobj o') = true := wf_scrubObserved hwo hs
    have hwres : Value.wf (.vobj res) = true :=
      wf_of_lookup (wf_vobj_iff.mp hwo).2 hres
    rw [runUpdateBody] at hok
    dsimp only at hok
    split at hok
    · simp at hok
    · split at hok
      · simp at hok
      · rename_i d hpay
        have hnov : nodupKeys (keysOf (buildOverlay c.resolvePeer p)) = true :=
          nodupKeys_buildOverlay c.resolvePeer p
        have hwov : wfKVs (buildOverlay c.resolvePeer p) = true :=
          wfKVs_buildOverlay hpw
        have hwnw : Value.wf (.vobj (mergeKV (copyKVs o')
            (buildOverlay c.resolvePeer p))) = true := by
          rw [copyKVs_id]
          exact wf_mergeKVs _ _ hwo' hwov
        have hnnw : nodupKeys (keysOf (mergeKV (copyKVs o')
            (buildOverlay c.resolvePeer p))) = true := (wf_vobj_iff.mp hwnw).1
        have hnd0 : nodupKeys (keysOf (diffKV o' (mergeKV (copyKVs o')
            (buildOverlay c.resolvePeer p)))) = true := by
          rw [diffKV]
          exact nodupKeys_filter _ hnnw
        have hnd : nodupKeys (keysOf d) = true := mkPayload_nodup hpay hnd0
        have hwd : wfKVs d = true :=
          mkPayload_wf hpay (wfKVs_diff (wf_vobj_iff.mp hwnw).2) hwnw
        have hadmD : ¬ "admin_certs" ∈ keysOf d :=
          payload_keys_permitted hwo' hpay (by decide) (by decide)
        have hdamD : ¬ "deployment_attrs_missing" ∈ keysOf d :=
          payload_keys_permitted hwo' hpay (by decide) (by decide)
        cases hcu : Value.equal (.vobj o') (.vobj (mergeKV (copyKVs o')
            (buildOverlay c.resolvePeer p))) with
        | true =>
          rw [hcu] at hok
          simp only [Bool.not_true, Bool.false_eq_true, if_false,
            List.append_nil] at hok
          split at hok
          · simp at hok
          · rename_i st2 editActs hstep
            split at hok
            · simp at hok
            · rename_i finV hfin
              have hsv : lookupKV o' "admin_certs" =
                  lookupKV o "admin_certs" := by
                rw [ho']
                exact lookup_setKV_ne _ _ (by decide)
              have heq0 : Value.equal (.vobj o')
                  (.vobj (mergeKV o' (buildOverlay c.resolvePeer p))) = true := by
                have h0 := hcu
                rw [copyKVs_id] at h0
                exact h0
              have habs0 := absorbed_of_equal hnov heq0
              have hst2res : lookupKV st2 "resources" =
                  lookupKV o "resources" :=
                lookup_adminStep_ne hstep (by decide)
              have hst2fin : lookupKV st2 "consenter_proposal_fin" =
                  lookupKV o "consenter_proposal_fin" :=
                lookup_adminStep_ne hstep (by decide)
              have hst2dam : lookupKV st2 "deployment_attrs_missing" =
                  lookupKV o "deployment_attrs_missing" :=
                lookup_adminStep_ne hstep (by decide)
              have hwst2 : Value.wf (.vobj st2) = true := wf_adminStep hstep hwo
              have hofin : lookupKV o "consenter_proposal_fin" = some finV := by
                have h0 := hfin
                rw [ho', lookup_setKV_ne _ _ (by decide)] at h0
                exact h0
              split at hok
              · rename_i blob hbl
                obtain ⟨hcons, -, hout0, finV2, -, -⟩ := finishRun_ok hok
                have hresN2 : lookupKV (setKV st2 "consenter_proposal_fin"
                    (.vbool true)) "resources" = some (.vobj res) := by
                  rw [lookup_setKV_ne _ _ (by decide), hst2res]
                  exact hres
                have hclean2 : (lookupKV (setKV st2 "consenter_proposal_fin"
                    (.vbool true)) "deployment_attrs_missing").isNone = true := by
                  rw [lookup_setKV_ne _ _ (by decide), hst2dam]
                  exact hclean
                have hwN : Value.wf (.vobj (setKV st2 "consenter_proposal_fin"
                    (.vbool true))) = true :=
                  wf_vobj_setKV _ hwst2 rfl
                have hlk : ∀ k, k ∈ keysOf (buildOverlay c.resolvePeer p) →
                    lookupKV (setKV (setKV st2 "consenter_proposal_fin"
                      (.vbool true)) "resources"
                      (.vobj (scrubResourcesObj res))) k = lookupKV o' k := by
                  intro k hkm
                  obtain ⟨hkadm, hkfin, -⟩ := ovkey_ne hkm
                  by_cases hkr : k = "resources"
                  · subst hkr
                    rw [lookup_setKV_self, ho', lookup_setKV_self]
                  · rw [lookup_setKV_ne _ _ hkr, lookup_setKV_ne _ _ hkfin,
                      lookup_adminStep_ne hstep hkadm, ho',
                      lookup_setKV_ne _ _ hkr]
                have habs := absorbed_transport habs0 hlk
                have hadmin2 : adminStep p (setKV (setKV st2
                    "consenter_proposal_fin" (.vbool true)) "resources"
                    (.vobj (scrubResourcesObj res)))
                    (setKV st2 "consenter_proposal_fin" (.vbool true)) =
                    .ok (setKV st2 "consenter_proposal_fin" (.vbool true), []) := by
                  apply adminStep_idem hstep hsv
                  rw [lookup_setKV_ne _ _ (by decide),
                    lookup_setKV_ne _ _ (by decide)]
                have hfin2 : lookupKV (setKV (setKV st2
                    "consenter_proposal_fin" (.vbool true)) "resources"
                    (.vobj (scrubResourcesObj res)))
                    "consenter_proposal_fin" = some (.vbool true) := by
                  rw [lookup_setKV_ne _ _ (by decide), lookup_setKV_self]
                have hout2 : r.output = some (projectNode (setKV (setKV st2
                    "consenter_proposal_fin" (.vbool true)) "resources"
                    (.vobj (scrubResourcesObj res)))) := by
                  rw [hout0, projectNode_setKV_res]
                exact second_run_exists hp hcons hclean2 hresN2 hwN habs
                  hadmin2 hfin2 rfl hout2
              · rename_i hbl
                obtain ⟨hcons, -, hout0, finV2, -, -⟩ := finishRun_ok hok
                have hresN2 : lookupKV st2 "resources" = some (.vobj res) := by
                  rw [hst2res]
                  exact hres
                have hclean2 : (lookupKV st2
                    "deployment_attrs_missing").isNone = true := by
                  rw [hst2dam]
                  exact hclean
                have hlk : ∀ k, k ∈ keysOf (buildOverlay c.resolvePeer p) →
                    lookupKV (setKV st2 "resources"
                      (.vobj (scrubResourcesObj res))) k = lookupKV o' k := by
                  intro k hkm
                  obtain ⟨hkadm, hkfin, -⟩ := ovkey_ne hkm
                  by_cases hkr : k = "resources"
                  · subst hkr
                    rw [lookup_setKV_self, ho', lookup_setKV_self]
                  · rw [lookup_setKV_ne _ _ hkr,
                      lookup_adminStep_ne hstep hkadm, ho',
                      lookup_setKV_ne _ _ hkr]
                have habs := absorbed_transport habs0 hlk
                have hadmin2 : adminStep p (setKV st2 "resources"
                    (.vobj (scrubResourcesObj res))) st2 = .ok (st2, []) := by
                  apply adminStep_idem hstep hsv
                  rw [lookup_setKV_ne _ _ (by decide)]
                have hfin2 : lookupKV (setKV st2 "resources"
                    (.vobj (scrubResourcesObj res)))
                    "consenter_proposal_fin" = some finV := by
                  rw [lookup_setKV_ne _ _ (by decide), hst2fin]
                  exact hofin
                have hout2 : r.output = some (projectNode (setKV st2
                    "resources" (.vobj (scrubResourcesObj res)))) := by
                  rw [hout0, projectNode_setKV_res,
                    projectNode_adminStep hstep, ho', projectNode_setKV_res]
                exact second_run_exists hp hcons hclean2 hresN2 hwst2 habs
                  hadmin2 hfin2 hbl hout2
        | false =>
          rw [hcu] at hok
          simp only [Bool.not_false, eq_self_iff_true, if_true] at hok
          split at hok
          · simp at hok
          · rename_i st2 editActs hstep
            split at hok
            · simp at hok
            · rename_i finV hfin
              obtain ⟨resN, hResApp⟩ :=
                lookup_applyUpd_resources hwo hwo' hnd hres ho' hpay
              have hst2res : lookupKV st2 "resources" =
                  lookupKV (applyUpdateStored o d) "resources" :=
                lookup_adminStep_ne hstep (by decide)
              have hst2fin : lookupKV st2 "consenter_proposal_fin" =
                  lookupKV (applyUpdateStored o d) "consenter_proposal_fin" :=
                lookup_adminStep_ne hstep (by decide)
              have hst2dam : lookupKV st2 "deployment_attrs_missing" =
                  lookupKV (applyUpdateStored o d) "deployment_attrs_missing" :=
                lookup_adminStep_ne hstep (by decide)
              have hwB : Value.wf (.vobj (applyUpdateStored o d)) = true :=
                wf_vobj_applyUpd hwo hwd
              have hwst2 : Value.wf (.vobj st2) = true := wf_adminStep hstep hwB
              have hdamB : lookupKV (applyUpdateStored o d)
                  "deployment_attrs_missing" =
                  lookupKV o "deployment_attrs_missing" :=
                applyUpd_lookup_notin hdamD
              split at hok
              · rename_i blob hbl
                obtain ⟨hcons, -, hout0, finV2, -, -⟩ := finishRun_ok hok
                have hresN2 : lookupKV (setKV st2 "consenter_proposal_fin"
                    (.vbool true)) "resources" = some (.vobj resN) := by
                  rw [lookup_setKV_ne _ _ (by decide), hst2res]
                  exact hResApp
                have hclean2 : (lookupKV (setKV st2 "consenter_proposal_fin"
                    (.vbool true)) "deployment_attrs_missing").isNone = true := by
                  rw [lookup_setKV_ne _ _ (by decide), hst2dam, hdamB]
                  exact hclean
                have hwN : Value.wf (.vobj (setKV st2 "consenter_proposal_fin"
                    (.vbool true))) = true :=
                  wf_vobj_setKV _ hwst2 rfl
                have hn : ∀ k, k ∈ keysOf (buildOverlay c.resolvePeer p) →
                    lookupKV (setKV st2 "consenter_proposal_fin"
                      (.vbool true)) k =
                    lookupKV (applyUpdateStored o d) k := by
                  intro k hkm
                  obtain ⟨hkadm, hkfin, -⟩ := ovkey_ne hkm
                  rw [lookup_setKV_ne _ _ hkfin,
                    lookup_adminStep_ne hstep hkadm]
                have habs := absorbed_after_update hwo hpw hrc hres ho' rfl
                  (by rw [copyKVs_id]) rfl hpay hn hresN2
                have hadmin2 : adminStep p (setKV (setKV st2
                    "consenter_proposal_fin" (.vbool true)) "resources"
                    (.vobj (scrubResourcesObj resN)))
                    (setKV st2 "consenter_proposal_fin" (.vbool true)) =
                    .ok (setKV st2 "consenter_proposal_fin" (.vbool true), []) := by
                  apply adminStep_idem hstep rfl
                  rw [lookup_setKV_ne _ _ (by decide),
                    lookup_setKV_ne _ _ (by decide)]
                have hfin2 : lookupKV (setKV (setKV st2
                    "consenter_proposal_fin" (.vbool true)) "resources"
                    (.vobj (scrubResourcesObj resN)))
                    "consenter_proposal_fin" = some (.vbool true) := by
                  rw [lookup_setKV_ne _ _ (by decide), lookup_setKV_self]
                have hout2 : r.output = some (projectNode (setKV (setKV st2
                    "consenter_proposal_fin" (.vbool true)) "resources"
                    (.vobj (scrubResourcesObj resN)))) := by
                  rw [hout0, projectNode_setKV_res]
                exact second_run_exists hp hcons hclean2 hresN2 hwN habs
                  hadmin2 hfin2 rfl hout2
              · rename_i hbl
                obtain ⟨hcons, -, hout0, finV2, -, -⟩ := finishRun_ok hok
                have hresN2 : lookupKV st2 "resources" = some (.vobj resN) := by
                  rw [hst2res]
                  exact hResApp
                have hclean2 : (lookupKV st2
                    "deployment_attrs_missing").isNone = true := by
                  rw [hst2dam, hdamB]
                  exact hclean
                have hn : ∀ k, k ∈ keysOf (buildOverlay c.resolvePeer p) →
                    lookupKV st2 k = lookupKV (applyUpdateStored o d) k := by
                  intro k hkm
                  obtain ⟨hkadm, hkfin, -⟩ := ovkey_ne hkm
                  rw [lookup_adminStep_ne hstep hkadm]
                have habs := absorbed_after_update hwo hpw hrc hres ho' rfl
                  (by rw [copyKVs_id]) rfl hpay hn hresN2
                have hadmin2 : adminStep p (setKV st2 "resources"
                    (.vobj (scrubResourcesObj resN))) st2 = .ok (st2, []) := by
                  apply adminStep_idem hstep rfl
                  rw [lookup_setKV_ne _ _ (by decide)]
                have hfin2 : lookupKV (setKV st2 "resources"
                    (.vobj (scrubResourcesObj resN)))
                    "consenter_proposal_fin" = some finV := by
                  rw [lookup_setKV_ne _ _ (by decide), hst2fin]
                  exact hfin
                have hout2 : r.output = some (projectNode (setKV st2
                    "resources" (.vobj (scrubResourcesObj resN)))) := by
                  rw [hout0, projectNode_setKV_res,
                    projectNode_adminStep hstep]
                exact second_run_exists hp hcons hclean2 hresN2 hwst2 habs
                  hadmin2 hfin2 hbl hout2

/-- Witness for the amended C4: the fixture run (overlay absorbed by
the clean fixture node) is a fixpoint — the second run reports
`changed = false` with the same output. -/
theorem c4_amended_witness :
    ∃ r₂, reconcile c10AbsorbResult.console c10AbsorbParams = .ok r₂ ∧
      r₂.changed = false ∧ r₂.output = c10AbsorbResult.output :=
  c4_amended_update_idempotent osnConsoleEx c10AbsorbParams osnNodeEx
    c10AbsorbResult rfl rfl rfl rfl rfl rfl rfl
